import Mathlib

/-!
Verification of the vimeo/procstats cgroup resolver and limit-aggregation
engine against its natural-language specification.

The Go source is shallowly embedded: Go strings (byte sequences) are
modelled as `List Char` (every byte 0..255 is a valid `Char`), Go slices as
`List`, Go `int`/`int64` as `Int` with explicit wrapping where overflow
matters, fallible functions as `Option`/`Except`.  Filesystem reads, which
are outside the source, are modelled as lists of per-level read results
handed to the aggregation loops.
-/

/-- Go strings are byte sequences; we model them as lists of characters. -/
abbrev Str := List Char

namespace GoStr

/-- Whitespace test used by `strings.Fields` (`unicode.IsSpace`, restricted
to the one-byte code points that can appear here). -/
def isSpaceChar (c : Char) : Bool :=
  c = ' ' ∨ c = '\t' ∨ c = '\n' ∨ c = '\x0b' ∨ c = '\x0c' ∨ c = '\r'

/-- Model of `strings.Split(s, sep)` for a single-character separator.
Like Go's `strings.Split`, the result is never empty and splitting the
empty string yields `[[]]`. -/
def splitOnChar (c : Char) : Str → List Str
  | [] => [[]]
  | x :: xs =>
    if x = c then [] :: splitOnChar c xs
    else
      match splitOnChar c xs with
      | [] => [[x]]
      | h :: t => (x :: h) :: t

/-- Split a string at the first occurrence of the (non-empty) separator
`sep`: returns `some (before, after)` or `none` when `sep` does not occur.
This backs `strings.SplitN(s, sep, n)` and `strings.Index`. -/
def splitOnce (sep : Str) : Str → Option (Str × Str)
  | [] => if sep = [] then some ([], []) else none
  | c :: rest =>
    if sep.isPrefixOf (c :: rest) then some ([], (c :: rest).drop sep.length)
    else
      match splitOnce sep rest with
      | none => none
      | some (a, b) => some (c :: a, b)

/-- Accumulator-based worker for `fields`; `acc` holds the current token
reversed. -/
def fieldsAux : Str → Str → List Str
  | acc, [] => if acc = [] then [] else [acc.reverse]
  | acc, c :: rest =>
    if isSpaceChar c then
      if acc = [] then fieldsAux [] rest else acc.reverse :: fieldsAux [] rest
    else fieldsAux (c :: acc) rest

/-- Model of `strings.Fields`: split around runs of whitespace. -/
def fields (s : Str) : List Str := fieldsAux [] s

/-- Model of `strings.TrimLeft(s, [c])`: drop every leading occurrence of
`c`. -/
def trimLeftChar (c : Char) (s : Str) : Str :=
  s.dropWhile (fun x => x = c)

/-- Model of `strings.TrimSpace`. -/
def trimSpace (s : Str) : Str :=
  (s.dropWhile (fun c => isSpaceChar c)).reverse.dropWhile (fun c => isSpaceChar c) |>.reverse

/-- Model of `strings.TrimSuffix(s, [c])`: drop one trailing occurrence of
`c`. -/
def trimSuffixChar (c : Char) (s : Str) : Str :=
  if s.getLast? = some c then s.dropLast else s

/-- Model of `strings.HasPrefix`. -/
def hasPrefix (pre s : Str) : Bool := pre.isPrefixOf s

/-- digit test for base 10 -/
def isDigitChar (c : Char) : Bool := '0' ≤ c ∧ c ≤ '9'

def digitVal (c : Char) : Nat := c.toNat - '0'.toNat

/-- Parse a non-empty all-decimal-digit string as a natural number. -/
def parseDigits (s : Str) : Option Nat :=
  if s = [] ∨ ¬ s.all (fun c => isDigitChar c) then none
  else some (s.foldl (fun acc c => acc * 10 + digitVal c) 0)

/-- Model of `strconv.Atoi` (= `ParseInt(s, 10, 0)` on 64-bit): optional
single sign followed by at least one decimal digit.  The Go `int` overflow
bound is not modelled; the inputs of interest stay far below it. -/
def goAtoi (s : Str) : Option Int :=
  match s with
  | '-' :: rest => (parseDigits rest).map (fun n => -(n : Int))
  | '+' :: rest => (parseDigits rest).map (fun n => (n : Int))
  | _ => (parseDigits s).map (fun n => (n : Int))

/-- Model of `strconv.ParseInt(s, 10, 64)`: like `goAtoi` but failing
(ErrRange) outside the `int64` range. -/
def goParseInt64 (s : Str) : Option Int :=
  match goAtoi s with
  | none => none
  | some v => if -(2 ^ 63) ≤ v ∧ v < 2 ^ 63 then some v else none

/-- Model of `strconv.ParseBool`: the exact set of accepted literals. -/
def goParseBool (s : Str) : Option Bool :=
  if s = ('1' :: []) ∨ s = "t".toList ∨ s = "T".toList ∨ s = "true".toList ∨
      s = "TRUE".toList ∨ s = "True".toList then some true
  else if s = ('0' :: []) ∨ s = "f".toList ∨ s = "F".toList ∨ s = "false".toList ∨
      s = "FALSE".toList ∨ s = "False".toList then some false
  else none

/-- Model of `strings.ToLower` (ASCII). -/
def toLowerStr (s : Str) : Str :=
  s.map (fun c => if 'A' ≤ c ∧ c ≤ 'Z' then Char.ofNat (c.toNat + 32) else c)

/-- Model of `strings.Join`: interleave `sep` between the elements. -/
def joinSep (sep : Str) (l : List Str) : Str := List.intercalate sep l

end GoStr

namespace Cgresolver

open GoStr

/-! ## Octal escape decoder (`unOctalEscape`, mountinfo_parse.go) -/

def isOctChar (c : Char) : Bool := '0' ≤ c ∧ c ≤ '7'

/-- Model of `strconv.ParseUint(esc, 8, 8)` on a three-character escape
body: all three characters must be octal digits and the value must fit in
8 bits (3 octal digits can encode up to 511). -/
def parseOct3 (d1 d2 d3 : Char) : Option Nat :=
  if isOctChar d1 ∧ isOctChar d2 ∧ isOctChar d3 then
    let v := digitVal d1 * 64 + digitVal d2 * 8 + digitVal d3
    if v < 256 then some v else none
  else none

/-- Embedding of `unOctalEscape` from mountinfo_parse.go: replace every
three-octal-digit backslash escape by the corresponding byte; error when a
backslash is not followed by three octal digits that fit in a byte. -/
def unOctalEscape : Str → Option Str
  | [] => some []
  | c :: rest =>
    if c = '\\' then
      match rest with
      | d1 :: d2 :: d3 :: rest2 =>
        match parseOct3 d1 d2 d3 with
        | some v => (unOctalEscape rest2).map (fun t => Char.ofNat v :: t)
        | none => none
      | _ => none
    else (unOctalEscape rest).map (fun t => c :: t)

/-- Octal digit character for a value `0 ≤ d ≤ 7`. -/
def octDigit (d : Nat) : Char := Char.ofNat ('0'.toNat + d)

/-- Encode a byte as a three-octal-digit zero-padded `\NNN` escape. -/
def octEncode (b : Nat) : Str :=
  '\\' :: octDigit (b / 64) :: octDigit (b / 8 % 8) :: octDigit (b % 8) :: []

/-! ## Mountinfo reader (`getCGroupMountsFromMountinfo`, mountinfo_parse.go) -/

/-- Embedding of the `Mount` struct: a cgroup or cgroup2 mount. -/
structure Mount where
  Mountpoint : Str
  Root : Str
  Subsystems : List Str
  CGroupV2 : Bool
deriving DecidableEq

/-- Per-line body of the loop in `getCGroupMountsFromMountinfo`:
`.ok none` means the line is skipped (empty, or not a cgroup/cgroup2
filesystem), `.error ()` aborts the whole parse. -/
def parseMILine (line : Str) : Except Unit (Option Mount) :=
  if line = [] then .ok none
  else
    match splitOnce (" - ".toList) line with
    | none => .error ()
    | some (sec0, sec1) =>
      match splitOnce (' ' :: []) sec1 with
      | none => .error ()
      | some (fsType, s2rest) =>
        match splitOnce (' ' :: []) s2rest with
        | none => .error ()
        | some (_src, opts) =>
          if fsType = "cgroup2".toList then
            parseMIFields sec0 opts true
          else if fsType = "cgroup".toList then
            parseMIFields sec0 opts false
          else .ok none
where
  /-- shared tail of the loop body: pre-separator fields, octal
  unescaping, and the v1 subsystem extraction from the per-superblock
  options. -/
  parseMIFields (sec0 opts : Str) (isCG2 : Bool) : Except Unit (Option Mount) :=
    match splitOnChar ' ' sec0 with
    | _f0 :: _f1 :: _f2 :: root :: mntpnt :: _ =>
      match unOctalEscape mntpnt with
      | none => .error ()
      | some mp =>
        match unOctalEscape root with
        | none => .error ()
        | some rootp =>
          let subsys :=
            if isCG2 then []
            else (splitOnChar ',' opts).filter
              (fun o => decide (¬ (o = "ro".toList ∨ o = "rw".toList ∨ o = [])))
          .ok (some ⟨mp, rootp, subsys, isCG2⟩)
    | _ => .error ()

/-- Fold of `parseMILine` over the lines, accumulating mounts in file
order; any per-line error aborts. -/
def collectMounts : List Str → Except Unit (List Mount)
  | [] => .ok []
  | l :: rest =>
    match parseMILine l with
    | .error e => .error e
    | .ok none => collectMounts rest
    | .ok (some m) => (collectMounts rest).map (fun ms => m :: ms)

/-- Embedding of `getCGroupMountsFromMountinfo`.  (The Go guard
`len(mountinfoLines) == 0` can never fire since `strings.Split` never
returns an empty slice.) -/
def getCGroupMountsFromMountinfo (s : Str) : Except Unit (List Mount) :=
  collectMounts (splitOnChar '\n' s)

/-- The mount emitted for a line, if any. -/
def miEmits (l : Str) : Option Mount :=
  match parseMILine l with
  | .ok (some m) => some m
  | _ => none

/-- Structural predicate: the line is non-empty, has the section
separator, at least three post-separator fields, and its filesystem type
(first post-separator field) is `cgroup` or `cgroup2`. -/
def isCGFsLine (l : Str) : Bool :=
  if l = [] then false
  else
    match splitOnce (" - ".toList) l with
    | none => false
    | some (_sec0, sec1) =>
      match splitOnce (' ' :: []) sec1 with
      | none => false
      | some (fsType, s2rest) =>
        match splitOnce (' ' :: []) s2rest with
        | none => false
        | some _ => decide (fsType = "cgroup".toList ∨ fsType = "cgroup2".toList)

/-! ## Lexical path algebra (`path/filepath`: Clean, Rel, Join)

These model the Go standard library functions used by `cgPath`
(`filepath.Rel`, `filepath.Join`) element-wise; `filepath.Clean` is the
classic lexical-cleaning algorithm. -/

/-- Worker for `clean`: process the slash-separated elements, keeping a
reversed accumulator; `.` and empty elements vanish, `..` pops (kept at
the front only when the path is not rooted). -/
def cleanAux (rooted : Bool) : List Str → List Str → List Str
  | acc, [] => acc.reverse
  | acc, e :: rest =>
    if e = [] ∨ e = ".".toList then cleanAux rooted acc rest
    else if e = "..".toList then
      match acc with
      | [] => if rooted then cleanAux rooted [] rest else cleanAux rooted (e :: []) rest
      | a :: acc' =>
        if a = "..".toList then cleanAux rooted (e :: a :: acc') rest
        else cleanAux rooted acc' rest
    else cleanAux rooted (e :: acc) rest

/-- Model of `filepath.Clean` (unix). -/
def clean (p : Str) : Str :=
  if p = [] then ".".toList
  else
    let rooted := decide (p.head? = some '/')
    let elems := cleanAux rooted [] (splitOnChar '/' p)
    if rooted then '/' :: joinSep ('/' :: []) elems
    else if elems = [] then ".".toList
    else joinSep ('/' :: []) elems

/-- Elements of a cleaned path, with the leading `/` (or a bare `/` or
empty path) contributing no element. -/
def pathElems (s : Str) : List Str :=
  if s = [] ∨ s = "/".toList then []
  else splitOnChar '/' (if s.head? = some '/' then s.drop 1 else s)

/-- Drop the longest common prefix of two element lists, returning both
remainders. -/
def dropCommonPrefix : List Str → List Str → List Str × List Str
  | a :: as, b :: bs =>
    if a = b then dropCommonPrefix as bs else (a :: as, b :: bs)
  | as, bs => (as, bs)

/-- Model of `filepath.Rel(basepath, targpath)` (unix, no volume names):
clean both, require equal rootedness, drop the common element prefix,
fail when the base remainder starts with `..`, and otherwise go up once
per remaining base element before descending into the target remainder. -/
def relGo (basep targp : Str) : Option Str :=
  let base := clean basep
  let targ := clean targp
  if targ = base then some (".".toList)
  else
    let base' := if base = ".".toList then [] else base
    let bSlashed := decide (base'.head? = some '/')
    let tSlashed := decide (targ.head? = some '/')
    if bSlashed ≠ tSlashed then none
    else
      match dropCommonPrefix (pathElems base') (pathElems targ) with
      | (brem, trem) =>
        if brem.head? = some ("..".toList) then none
        else if brem = [] then some (joinSep ('/' :: []) trem)
        else some (joinSep ('/' :: []) (List.replicate brem.length ("..".toList) ++ trem))

/-- Model of `filepath.Join(a, b)`: drop empty components, join with a
slash, and clean the result (empty when both components are empty). -/
def joinGo (a b : Str) : Str :=
  match (a :: b :: []).filter (fun e => decide (¬ e = [])) with
  | [] => []
  | elems => clean (joinSep ('/' :: []) elems)

/-! ## CGroupPath, Parent walker and resolver (`cgPath`, proc_cgroup.go and
the cgresolver package file holding `Parent`) -/

/-- Embedding of the `CGMode` enum. -/
inductive CGMode where
  | unknown
  | v1
  | v2
deriving DecidableEq

/-- Embedding of `cgroup2Mode`. -/
def cgroup2Mode (iscg2 : Bool) : CGMode := if iscg2 then .v2 else .v1

/-- Embedding of the `CGroupPath` struct. -/
structure CGroupPath where
  AbsPath : Str
  MountPath : Str
  Mode : CGMode
deriving DecidableEq

/-- Prefix of `s` strictly before its last slash (meaningful only when a
slash occurs); models `path[:strings.LastIndexByte(path, '/')]`. -/
def takeBeforeLastSlash (s : Str) : Str :=
  ((s.reverse.dropWhile (fun c => decide (¬ c = '/'))).drop 1).reverse

/-- Embedding of `CGroupPath.Parent`: strip one trailing slash from both
paths; when they agree the walk is finished (`advanced = false`);
otherwise truncate at the last slash.  `none` models the `panic` on a
slashless non-terminal path. -/
def CGroupPath.Parent (c : CGroupPath) : Option (CGroupPath × Bool) :=
  let path := trimSuffixChar '/' c.AbsPath
  let mnt := trimSuffixChar '/' c.MountPath
  if mnt = path then some (⟨path, mnt, c.Mode⟩, false)
  else if '/' ∈ path then some (⟨takeBeforeLastSlash path, mnt, c.Mode⟩, true)
  else none

/-- Iterate `Parent` (with fuel) until `advanced = false`, as the
aggregator loops do; `none` when the fuel runs out or `Parent` panics. -/
def parentRun : Nat → CGroupPath → Option CGroupPath
  | 0, _ => none
  | n + 1, c =>
    match c.Parent with
    | none => none
    | some (c', false) => some c'
    | some (c', true) => parentRun n c'

/-- Embedding of the `CGProcHierarchy` struct (one record of
`/proc/<pid>/cgroup`). -/
structure CGProcHierarchy where
  HierarchyID : Int
  SubsystemsCSV : Str
  Subsystems : List Str
  Path : Str
deriving DecidableEq

/-- First-match resolution over the mount list, parameterized by the
match predicate; shared shape of the source `cgPath` loop and of the
claim-side description of it. -/
def resolveFirstMatch (mtch : CGProcHierarchy → Mount → Bool) (c : CGProcHierarchy) :
    List Mount → Option CGroupPath
  | [] => none
  | mp :: rest =>
    if hasPrefix ("/..".toList) mp.Root then resolveFirstMatch mtch c rest
    else if mtch c mp then
      match relGo mp.Root c.Path with
      | none => resolveFirstMatch mtch c rest
      | some rel =>
        if hasPrefix ("../".toList) rel then resolveFirstMatch mtch c rest
        else some ⟨joinGo mp.Mountpoint rel, mp.Mountpoint, cgroup2Mode mp.CGroupV2⟩
    else resolveFirstMatch mtch c rest

/-- Embedding of `CGProcHierarchy.cgPath` (proc_cgroup.go): walk the
mounts in order; skip mounts rooted outside the cgroup namespace; a mount
matches when it is a cgroup2 mount and the record has hierarchy ID 0, or
when its subsystem list equals the record's; skip matches whose
mount-relative path fails or escapes upward. -/
def cgPath (c : CGProcHierarchy) : List Mount → Option CGroupPath
  | [] => none
  | mp :: rest =>
    if hasPrefix ("/..".toList) mp.Root then cgPath c rest
    else if (mp.CGroupV2 ∧ c.HierarchyID = 0) ∨ mp.Subsystems = c.Subsystems then
      match relGo mp.Root c.Path with
      | none => cgPath c rest
      | some rel =>
        if hasPrefix ("../".toList) rel then cgPath c rest
        else some ⟨joinGo mp.Mountpoint rel, mp.Mountpoint, cgroup2Mode mp.CGroupV2⟩
    else cgPath c rest

/-- The match predicate exactly as the claim states it: v2 mounts match
hierarchy-0 records; v1 mounts match when the controller sets are
equal. -/
def claimMatch (c : CGProcHierarchy) (mp : Mount) : Bool :=
  decide ((mp.CGroupV2 ∧ c.HierarchyID = 0) ∨ (¬ mp.CGroupV2 ∧ mp.Subsystems = c.Subsystems))

/-- The match predicate the code actually applies: the controller-set
equality clause is not restricted to v1 mounts. -/
def codeMatch (c : CGProcHierarchy) (mp : Mount) : Bool :=
  decide ((mp.CGroupV2 ∧ c.HierarchyID = 0) ∨ mp.Subsystems = c.Subsystems)

/-! ### Embedding of `parseCGSubsystems` (cgresolver/proc_cgroup.go) -/

/-- Embedding of `CGroupSubsystem`: a row of /proc/cgroups. -/
structure CGroupSubsystem where
  Subsys : Str
  Hierarchy : Int
  NumCGroups : Int
  Enabled : Bool
deriving DecidableEq

/-- Errors of parseCGSubsystems, one constructor per `return nil, err`
site. -/
inductive CGSErr where
  | insufficientCols
  | colMismatch (n : Nat)
  | badHier
  | badNum
  | badEnabled
  | dupCol (name : Str)
  | missingCritical
deriving DecidableEq

/-- The canonical /proc/cgroups header columns, in file order. -/
def expCGCols : List Str :=
  ["subsys_name".toList, "hierarchy".toList, "num_cgroups".toList, "enabled".toList]

/-- Embedding of the fast-path `extractRow` closure: exactly four
columns in canonical order. -/
def extractRowFast (vals : List Str) : Except CGSErr CGroupSubsystem :=
  if ¬ vals.length = 4 then .error (.colMismatch vals.length)
  else
    match GoStr.goAtoi (vals.getD 1 []) with
    | none => .error .badHier
    | some hier =>
      match GoStr.goAtoi (vals.getD 2 []) with
      | none => .error .badNum
      | some ncg =>
        match GoStr.goParseBool (vals.getD 3 []) with
        | none => .error .badEnabled
        | some en => .ok ⟨vals.getD 0 [], hier, ncg, en⟩

/-- Embedding of the header-remap loop: scan the (lowercased) headers
left to right, recording the index of each recognized column and
failing on a second occurrence; unknown columns fall through.  (The Go
code keeps `-1` for a missing column; here `Option Nat`.) -/
def findColsAux : List Str → Nat → Option Nat → Option Nat → Option Nat → Option Nat →
    Except CGSErr (Option Nat × Option Nat × Option Nat × Option Nat)
  | [], _, sC, hC, nC, eC => .ok (sC, hC, nC, eC)
  | colHead :: rest, i, sC, hC, nC, eC =>
    let lc := GoStr.toLowerStr colHead
    if lc = "subsys_name".toList then
      match sC with
      | some _ => .error (.dupCol lc)
      | none => findColsAux rest (i + 1) (some i) hC nC eC
    else if lc = "hierarchy".toList then
      match hC with
      | some _ => .error (.dupCol lc)
      | none => findColsAux rest (i + 1) sC (some i) nC eC
    else if lc = "num_cgroups".toList then
      match nC with
      | some _ => .error (.dupCol lc)
      | none => findColsAux rest (i + 1) sC hC (some i) eC
    else if lc = "enabled".toList then
      match eC with
      | some _ => .error (.dupCol lc)
      | none => findColsAux rest (i + 1) sC hC nC (some i)
    else findColsAux rest (i + 1) sC hC nC eC

/-- Embedding of the remapped `extractRow` closure: the row must have as
many fields as the header; `num_cgroups` and `enabled` default to 0 and
true when their column is absent (the inner `match` of an absent column
produces the default directly, where Go initializes the field and skips
the overwrite). -/
def extractRowMapped (nHeaders sc hc : Nat) (nC eC : Option Nat) (vals : List Str) :
    Except CGSErr CGroupSubsystem :=
  if ¬ vals.length = nHeaders then .error (.colMismatch vals.length)
  else
    match GoStr.goAtoi (vals.getD hc []) with
    | none => .error .badHier
    | some hier =>
      match (match nC with
             | none => some (0 : Int)
             | some nc => GoStr.goAtoi (vals.getD nc [])) with
      | none => .error .badNum
      | some ncg =>
        match (match eC with
               | none => some true
               | some ec => GoStr.goParseBool (vals.getD ec [])) with
        | none => .error .badEnabled
        | some en => .ok ⟨vals.getD sc [], hier, ncg, en⟩

/-- Embedding of the data-row loop of parseCGSubsystems: skip empty
lines, split the rest into whitespace-separated fields, extract, and
stop at the first failing row. -/
def cgRowsLoop (extract : List Str → Except CGSErr CGroupSubsystem) :
    List Str → Except CGSErr (List CGroupSubsystem)
  | [] => .ok []
  | l :: rest =>
    if l = [] then cgRowsLoop extract rest
    else
      match extract (GoStr.fields l) with
      | .error e => .error e
      | .ok row =>
        match cgRowsLoop extract rest with
        | .error e => .error e
        | .ok rows => .ok (row :: rows)

/-- Embedding of `parseCGSubsystems`: split into lines, strip the `#`
prefix of the header line and split it into fields, take the fast path
on the exact canonical header, otherwise remap the columns (requiring
subsys_name and hierarchy), then extract every non-empty data line.
(`strings.Split` never returns an empty slice, so Go's `lines[0]` is
`headD`.) -/
def parseCGSubsystems (s : Str) : Except CGSErr (List CGroupSubsystem) :=
  let lines := GoStr.splitOnChar '\n' s
  let headers := GoStr.fields (GoStr.trimLeftChar '#' (lines.headD []))
  if headers.length < 2 then .error .insufficientCols
  else if headers = expCGCols then cgRowsLoop extractRowFast (lines.drop 1)
  else
    match findColsAux headers 0 none none none none with
    | .error e => .error e
    | .ok (sC, hC, nC, eC) =>
      match sC, hC with
      | some sc, some hc =>
        cgRowsLoop (extractRowMapped headers.length sc hc nC eC) (lines.drop 1)
      | _, _ => .error .missingCritical

/-! ### Input construction for the /proc/cgroups column-layout claim

The following definitions build a /proc/cgroups image from an abstract
column layout and abstract rows; they parameterize the theorem about
header permutations and are not part of the program embedding. -/

/-- A recognized /proc/cgroups column. -/
inductive CGCol where
  | subsys
  | hier
  | ncg
  | en
deriving DecidableEq

/-- Header token of each recognized column. -/
def colHeader : CGCol → Str
  | .subsys => "subsys_name".toList
  | .hier => "hierarchy".toList
  | .ncg => "num_cgroups".toList
  | .en => "enabled".toList

/-- An abstract data row: the four column tokens of one subsystem. -/
structure CGRowToks where
  subsysTok : Str
  hierTok : Str
  ncgTok : Str
  enTok : Str
deriving DecidableEq

/-- The token a row places under a given column. -/
def rowTok (r : CGRowToks) : CGCol → Str
  | .subsys => r.subsysTok
  | .hier => r.hierTok
  | .ncg => r.ncgTok
  | .en => r.enTok

/-- A well-formed field token: non-empty and free of whitespace. -/
def validTok (t : Str) : Bool :=
  decide (¬ t = []) && t.all (fun c => ! GoStr.isSpaceChar c)

def rowValid (r : CGRowToks) : Bool :=
  validTok r.subsysTok && validTok r.hierTok && validTok r.ncgTok && validTok r.enTok

/-- The header line: `#` followed by the tab-separated column headers. -/
def headerLineCG (cols : List CGCol) : Str :=
  '#' :: GoStr.joinSep ('\t' :: []) (cols.map colHeader)

/-- A data line: the row's tokens in column order, tab-separated. -/
def rowLineCG (cols : List CGCol) (r : CGRowToks) : Str :=
  GoStr.joinSep ('\t' :: []) (cols.map (rowTok r))

/-- A whole /proc/cgroups image for a column layout and a row list. -/
def serializeCG (cols : List CGCol) (rows : List CGRowToks) : Str :=
  GoStr.joinSep ('\n' :: []) (headerLineCG cols :: rows.map (rowLineCG cols))

/-- Index of the first occurrence of a column in a layout. -/
def colIdx : List CGCol → CGCol → Option Nat
  | [], _ => none
  | x :: rest, c => if x = c then some 0 else (colIdx rest c).map (fun k => k + 1)

/-- The value the remap loop leaves in an accumulator that started as
`cur` before scanning `cols` with base index `i`. -/
def mergeIdx (cur : Option Nat) (cols : List CGCol) (c : CGCol) (i : Nat) : Option Nat :=
  match cur with
  | some k => some k
  | none => (colIdx cols c).map (fun k => k + i)

end Cgresolver

namespace Pparser

/-! ### Embedding of `pparser.LineKVFileParser` (proc_human_parser.go)

The reflection-driven parser is embedded over an explicit schema: a field
name is mapped to the `reflect.Kind` of its destination (int/uint fields
carry their bit width, covering reflect.Int8 through reflect.Int64 and
the uint family; string fields have no width).  Float fields are not
modelled: no schema of this repository declares one.  The record under
population is an association list per class of field, and Go's in-place
reflect.Value writes become functional updates. -/

/-- Declared kind of a destination field (`reflect.Kind` as used by the
dispatch in Parse): a signed integer of width `w` bits, an unsigned
integer of width `w` bits, or a string. -/
inductive FieldKind where
  | int (w : Nat)
  | uint (w : Nat)
  | str
deriving DecidableEq

/-- A populated field value. -/
inductive FieldVal where
  | int (v : Int)
  | uint (v : Nat)
  | str (s : Str)
deriving DecidableEq

/-- Embedding of `LineKVFileParser`: the field index (name to declared
kind), the key/value separator, and the element kind of the optional
unknown-fields map (`none` models `reflect.Invalid`, i.e. no such
field). -/
structure KVParser where
  idx : List (Str × FieldKind)
  splitKey : Str
  unknownKind : Option FieldKind
deriving DecidableEq

/-- Errors of Parse.  Go panics (the "invariant failure" paths and the
reflect panics on kind-mismatched Set calls) are modelled by a dedicated
constructor so they stay distinguishable from returned errors. -/
inductive KVErr where
  | splitFail (line : Str)
  | parseFail (line : Str)
  | overflow (name : Str) (v : Int)
  | uoverflow (name : Str) (v : Nat)
  | unhandledKind
  | invariantFailure
deriving DecidableEq

/-- The record being populated: the struct fields and the
unknown-fields map. -/
structure KVOut where
  fields : List (Str × FieldVal)
  unknown : List (Str × FieldVal)
deriving DecidableEq

/-- Association-list lookup (Go map read / field index lookup). -/
def assocFind {β : Type} : List (Str × β) → Str → Option β
  | [], _ => none
  | (k, v) :: rest, key => if k = key then some v else assocFind rest key

/-- Association-list update (Go field write / map insert). -/
def assocSet {β : Type} : List (Str × β) → Str → β → List (Str × β)
  | [], key, v => [(key, v)]
  | (k, w) :: rest, key, v =>
    if k = key then (key, v) :: rest else (k, w) :: assocSet rest key v

/-- Model of `strings.HasSuffix`. -/
def hasSuffix (suf s : Str) : Bool := suf.reverse.isPrefixOf s.reverse

/-- Model of `strings.TrimSuffix`. -/
def trimSuffixStr (s suf : Str) : Str :=
  if hasSuffix suf s then s.take (s.length - suf.length) else s

/-- Embedding of `trimStringWithMultiplier`: strip a "kB" suffix and
return the multiplier 1024, otherwise multiplier 1. -/
def trimStringWithMultiplier (s : Str) : Str × Int :=
  if hasSuffix ('k' :: 'B' :: []) s then
    (GoStr.trimSpace (trimSuffixStr s ('k' :: 'B' :: [])), 1024)
  else (s, 1)

/-- Model of `strconv.ParseUint(s, 10, 64)`: decimal digits, no sign,
failing outside the uint64 range. -/
def goParseUint64 (s : Str) : Option Nat :=
  match GoStr.parseDigits s with
  | none => none
  | some n => if n < 2 ^ 64 then some n else none

/-- Go `int64` wraparound for `val *= mul`. -/
def wrapInt64 (v : Int) : Int := (v + 2 ^ 63) % 2 ^ 64 - 2 ^ 63

/-- Model of `reflect.Value.OverflowInt` (negated) for a signed field of
width `w` bits. -/
def intFits (w : Nat) (v : Int) : Bool :=
  decide (-(2 ^ (w - 1)) ≤ v) && decide (v < 2 ^ (w - 1))

/-- Model of `reflect.Value.OverflowUint` (negated) for an unsigned
field of width `w` bits. -/
def uintFits (w : Nat) (v : Nat) : Bool := decide (v < 2 ^ w)

/-- Embedding of `fieldKind`: the declared kind of a known field, and
the unknown-map element kind otherwise. -/
def fieldKind (p : KVParser) (name : Str) : Option FieldKind :=
  match assocFind p.idx name with
  | some k => some k
  | none => p.unknownKind

/-- Embedding of `setIntField`: an overflowing value yields an error and
the record is not written; otherwise the field (or the unknown-fields
map entry) is set. -/
def setIntField (p : KVParser) (out : KVOut) (name : Str) (v : Int) :
    Except KVErr KVOut :=
  match assocFind p.idx name with
  | some (.int w) =>
    if intFits w v then .ok ⟨assocSet out.fields name (.int v), out.unknown⟩
    else .error (.overflow name v)
  | some _ => .error .invariantFailure
  | none =>
    match p.unknownKind with
    | some (.int w) =>
      if intFits w v then .ok ⟨out.fields, assocSet out.unknown name (.int v)⟩
      else .error (.overflow name v)
    | _ => .error .invariantFailure

/-- Embedding of `setUintField`. -/
def setUintField (p : KVParser) (out : KVOut) (name : Str) (v : Nat) :
    Except KVErr KVOut :=
  match assocFind p.idx name with
  | some (.uint w) =>
    if uintFits w v then .ok ⟨assocSet out.fields name (.uint v), out.unknown⟩
    else .error (.uoverflow name v)
  | some _ => .error .invariantFailure
  | none =>
    match p.unknownKind with
    | some (.uint w) =>
      if uintFits w v then .ok ⟨out.fields, assocSet out.unknown name (.uint v)⟩
      else .error (.uoverflow name v)
    | _ => .error .invariantFailure

/-- Embedding of `setStringField`. -/
def setStringField (p : KVParser) (out : KVOut) (name : Str) (v : Str) :
    Except KVErr KVOut :=
  match assocFind p.idx name with
  | some .str => .ok ⟨assocSet out.fields name (.str v), out.unknown⟩
  | some _ => .error .invariantFailure
  | none =>
    match p.unknownKind with
    | some .str => .ok ⟨out.fields, assocSet out.unknown name (.str v)⟩
    | _ => .error .invariantFailure

/-- One iteration of the Parse loop body: split the line on the first
occurrence of the separator, trim the value, dispatch on the destination
kind, parse base-10 and apply the kB multiplier with int64/uint64
wraparound, and store. -/
def kvProcessLine (p : KVParser) (out : KVOut) (line : Str) : Except KVErr KVOut :=
  match GoStr.splitOnce p.splitKey line with
  | none => .error (.splitFail line)
  | some (key, restStr) =>
    let trimmedVal := GoStr.trimSpace restStr
    match fieldKind p key with
    | some (.int _) =>
      let pr := trimStringWithMultiplier trimmedVal
      match GoStr.goParseInt64 pr.1 with
      | none => .error (.parseFail line)
      | some val => setIntField p out key (wrapInt64 (val * pr.2))
    | some (.uint _) =>
      let pr := trimStringWithMultiplier trimmedVal
      match goParseUint64 pr.1 with
      | none => .error (.parseFail line)
      | some val => setUintField p out key ((val * (pr.2).toNat) % 2 ^ 64)
    | some .str => setStringField p out key trimmedVal
    | none => .error .unhandledKind

/-- The chunks returned by successive `ReadString` calls on a newline
delimiter: each keeps its terminating newline; a final chunk without one
is the remainder returned together with `io.EOF`; the Parse loop stops
on the empty chunk. -/
def kvLinesAux : Str → Str → List Str
  | acc, [] => if acc = [] then [] else [acc.reverse]
  | acc, c :: rest =>
    if c = '\n' then (c :: acc).reverse :: kvLinesAux [] rest
    else kvLinesAux (c :: acc) rest

def kvLines (s : Str) : List Str := kvLinesAux [] s

/-- The Parse loop over the lines of the file. -/
def kvParse (p : KVParser) : List Str → KVOut → Except KVErr KVOut
  | [], out => .ok out
  | line :: rest, out =>
    match kvProcessLine p out line with
    | .error e => .error e
    | .ok outN => kvParse p rest outN

/-- Embedding of `LineKVFileParser.Parse`. -/
def Parse (p : KVParser) (content : Str) (out : KVOut) : Except KVErr KVOut :=
  kvParse p (kvLines content) out

end Pparser

namespace Cgrouplimits

/-! ## Aggregation loops (cgrouplimits/cgroup_linux.go)

The four aggregators walk the cgroup hierarchy leaf-first (`Parent`
iteration, shown finite in the C5 theorem) and read limits/stats from the
filesystem at each level.  The filesystem is outside the source, so each
loop is embedded over the list of its per-level read results, leaf
first. -/

/-- Embedding of `procstats.CPUTime`: user and system time
(`time.Duration` nanosecond counts, i.e. int64). -/
structure CPUTime where
  Utime : Int
  Stime : Int
deriving DecidableEq

/-- Embedding of `cgrouplimits.CPUStats`.  The float64 CPU limit is
modelled as an exact rational; the aggregation loop only compares limits
and never computes with them. -/
structure CPUStats where
  Limit : Rat
  Usage : CPUTime
  ThrottledTime : Int
deriving DecidableEq

/-- Embedding of `cgrouplimits.MemoryStats`. -/
structure MemoryStats where
  Total : Int
  Free : Int
  Available : Int
  OOMKills : Int
deriving DecidableEq

/-- Sentinel `math.MaxInt64`. -/
def maxInt64 : Int := 2 ^ 63 - 1

/-- Sentinel `math.MaxUint64`. -/
def maxUint64 : Nat := 2 ^ 64 - 1

/-- Go's `uint64(x)` cast of an int64 value (two's complement). -/
def u64 (v : Int) : Nat := (v % (2 ^ 64)).toNat

/-- Shared shape of the four aggregation loops: fold the successful
per-level reads through `step`, recording the error of the deepest level
only while every level so far has failed (`if leafCGReadErr == nil &&
allFailed`), and fail with that error exactly when every level failed.
The error payload is `Option E` because Go would return a nil error on an
empty walk, which cannot happen (`newDir` starts true). -/
def leafErrUpd {E : Type} (leafErr : Option E) (allFailed : Bool) (e : E) : Option E :=
  match leafErr, allFailed with
  | none, true => some e
  | _, _ => leafErr

/-- The loop itself; see the comment above `leafErrUpd`. -/
def aggLoop {E V S : Type} (step : S → V → S) :
    List (Except E V) → S → Bool → Option E → Except (Option E) S
  | [], s, allFailed, leafErr => if allFailed then .error leafErr else .ok s
  | r :: rest, s, allFailed, leafErr =>
    match r with
    | .error e => aggLoop step rest s allFailed (leafErrUpd leafErr allFailed e)
    | .ok v => aggLoop step rest (step s v) false leafErr

/-- Strict comparison against a running minimum where `none` models
`math.Inf(+1)`. -/
def ltOpt {α : Type} [LinearOrder α] (v : α) : Option α → Bool
  | none => true
  | some m => decide (v < m)

/-- The `cgLim != -1 && cgLim != 0.0` part of the CPU aggregation
guards. -/
def cpuLimNonSentinel (lim : Rat) : Bool :=
  decide (¬ lim = -1) && decide (¬ lim = 0)

/-- Per-level body of the GetCgroupCPULimit loop: keep the smallest limit
that is neither -1 nor 0. -/
def cpuLimitStep (minLimit : Option Rat) (lim : Rat) : Option Rat :=
  if cpuLimNonSentinel lim && ltOpt lim minLimit then some lim else minLimit

/-- Embedding of GetCgroupCPULimit over the per-level results of
`getCGroupCPULimitSingle`; `.ok none` is the `math.Inf(+1)` result (no
level imposed a limit). -/
def GetCgroupCPULimit {E : Type} (reads : List (Except E Rat)) :
    Except (Option E) (Option Rat) :=
  aggLoop cpuLimitStep reads none true none

/-- Per-level body of the GetCgroupMemoryLimit loop
(`limitBytes > 0 && limitBytes < minLimit`). -/
def memLimitStep (minLimit : Int) (lim : Int) : Int :=
  if decide (0 < lim) && decide (lim < minLimit) then lim else minLimit

/-- Embedding of GetCgroupMemoryLimit over the per-level results of the
memory-limit-file read; the minimum starts at `math.MaxInt64`. -/
def GetCgroupMemoryLimit {E : Type} (reads : List (Except E Int)) :
    Except (Option E) Int :=
  aggLoop memLimitStep reads maxInt64 true none

/-- Loop state of GetCgroupCPUStats. -/
structure CPUAggSt where
  minLimit : Option Rat
  minStats : CPUStats
  populated : Bool
  leafStats : CPUStats
deriving DecidableEq

/-- Per-level body of the GetCgroupCPUStats loop: remember the first
(deepest) successful stats, and the stats of the level holding the
running minimum among limits that are neither -1 nor 0. -/
def cpuStatsStep (s : CPUAggSt) (pr : CPUStats × Rat) : CPUAggSt :=
  if cpuLimNonSentinel pr.2 && ltOpt pr.2 s.minLimit then
    ⟨some pr.2, pr.1, true, if s.populated then s.leafStats else pr.1⟩
  else
    ⟨s.minLimit, s.minStats, true, if s.populated then s.leafStats else pr.1⟩

/-- Zero value `CPUStats{}`. -/
def zeroCPUStats : CPUStats := ⟨0, ⟨0, 0⟩, 0⟩

/-- Embedding of GetCgroupCPUStats over the per-level `(stats, limit)`
results of `getCGroupCPUStatsSingle`: error iff every level failed;
otherwise the stats of the minimum-limit level, or the leaf stats when
the minimum is still infinite. -/
def GetCgroupCPUStats {E : Type} (reads : List (Except E (CPUStats × Rat))) :
    Except (Option E) CPUStats :=
  match aggLoop cpuStatsStep reads ⟨none, zeroCPUStats, false, zeroCPUStats⟩ true none with
  | .error e => .error e
  | .ok st =>
    match st.minLimit with
    | none => .ok st.leafStats
    | some _ => .ok st.minStats

/-- Zero value `MemoryStats{}`. -/
def zeroMemoryStats : MemoryStats := ⟨0, 0, 0, 0⟩

/-- Loop state of GetCgroupMemoryStats: the running minimum is a uint64
starting at `math.MaxUint64`; note there is no leaf-stats tracking. -/
structure MemAggSt where
  minLimit : Nat
  minStats : MemoryStats
deriving DecidableEq

/-- Per-level body of the GetCgroupMemoryStats loop
(`cgLim != -1 && uint64(cgLim) < minLimit`). -/
def memStatsStep (s : MemAggSt) (pr : MemoryStats × Int) : MemAggSt :=
  if decide (¬ pr.2 = -1) && decide (u64 pr.2 < s.minLimit) then ⟨u64 pr.2, pr.1⟩ else s

/-- Embedding of GetCgroupMemoryStats over the per-level
`(stats, limit)` results of `getCGroupMemoryStatsSingle`. -/
def GetCgroupMemoryStats {E : Type} (reads : List (Except E (MemoryStats × Int))) :
    Except (Option E) MemoryStats :=
  match aggLoop memStatsStep reads ⟨maxUint64, zeroMemoryStats⟩ true none with
  | .error e => .error e
  | .ok st => .ok st.minStats

/-- Successful per-level values, in walk order (leaf first). -/
def okVals {E V : Type} (reads : List (Except E V)) : List V :=
  reads.filterMap (fun r => match r with | .ok v => some v | .error _ => none)

/-- Executable minimum of a list. -/
def listMin? {α : Type} [LinearOrder α] : List α → Option α
  | [] => none
  | x :: xs =>
    some (match listMin? xs with
      | none => x
      | some m => min x m)

/-- Merge a running minimum (`none` = +infinity) with the minimum of a
batch of new values. -/
def mergeMin {α : Type} [LinearOrder α] : Option α → Option α → Option α
  | none, o => o
  | some m, none => some m
  | some m, some k => some (min m k)

/-- Generic min-selection fold with the stats of the selected level:
common shape of the two stats-aggregation loops. -/
def foldSel {α σ : Type} [LinearOrder α] (P : α → Bool)
    (acc : Option α × σ) (pairs : List (σ × α)) : Option α × σ :=
  List.foldl
    (fun (acc : Option α × σ) (pr : σ × α) =>
      if P pr.2 && ltOpt pr.2 acc.1 then (some pr.2, pr.1) else acc)
    acc pairs

end Cgrouplimits

namespace Cgresolver

open GoStr

theorem octDigit_isOct {d : Nat} (h : d < 8) : isOctChar (octDigit d) = true := by
  interval_cases d <;> decide

theorem digitVal_octDigit {d : Nat} (h : d < 8) : digitVal (octDigit d) = d := by
  interval_cases d <;> decide

/-- Unfolding lemma: a non-backslash head passes through the decoder. -/
theorem unOctalEscape_cons_ne (c : Char) (rest : Str) (h : ¬ c = '\\') :
    unOctalEscape (c :: rest) = (unOctalEscape rest).map (fun t => c :: t) := by
  match rest with
  | [] => simp [unOctalEscape, h]
  | [d1] => simp [unOctalEscape, h]
  | [d1, d2] => simp [unOctalEscape, h]
  | d1 :: d2 :: d3 :: r2 => simp [unOctalEscape, h]

/-- Unfolding lemma: a backslash followed by at least three characters
consumes a three-character escape. -/
theorem unOctalEscape_cons_esc (d1 d2 d3 : Char) (rest2 : Str) :
    unOctalEscape ('\\' :: d1 :: d2 :: d3 :: rest2) =
      match parseOct3 d1 d2 d3 with
      | some v => (unOctalEscape rest2).map (fun t => Char.ofNat v :: t)
      | none => none := by
  simp [unOctalEscape]

/-- Decoding an encoded byte prepends exactly that byte. -/
theorem unOctalEscape_octEncode (b : Nat) (hb : b < 256) (rest : Str) :
    unOctalEscape (octEncode b ++ rest) =
      (unOctalEscape rest).map (fun t => Char.ofNat b :: t) := by
  have h64 : b / 64 < 8 := by omega
  have h8 : b / 8 % 8 < 8 := by omega
  have h1 : b % 8 < 8 := by omega
  have hoct : parseOct3 (octDigit (b / 64)) (octDigit (b / 8 % 8)) (octDigit (b % 8)) =
      some b := by
    have hcond : isOctChar (octDigit (b / 64)) = true ∧ isOctChar (octDigit (b / 8 % 8)) = true ∧
        isOctChar (octDigit (b % 8)) = true :=
      ⟨octDigit_isOct h64, octDigit_isOct h8, octDigit_isOct h1⟩
    have hval : b / 64 * 64 + b / 8 % 8 * 8 + b % 8 = b := by omega
    simp only [parseOct3, hcond, and_self, if_true, digitVal_octDigit h64,
      digitVal_octDigit h8, digitVal_octDigit h1, hval, hb, if_pos]
  show unOctalEscape ('\\' :: octDigit (b / 64) :: octDigit (b / 8 % 8) :: octDigit (b % 8)
      :: rest) = _
  rw [unOctalEscape_cons_esc, hoct]

/-- A backslash-free string decodes to itself. -/
theorem unOctalEscape_no_backslash (s : Str) (h : '\\' ∉ s) :
    unOctalEscape s = some s := by
  induction s with
  | nil => rfl
  | cons c rest ih =>
    have hc : ¬ c = '\\' := fun hcc => h (hcc ▸ List.mem_cons_self c rest)
    have hrest : '\\' ∉ rest := fun hm => h (List.mem_cons_of_mem c hm)
    rw [unOctalEscape_cons_ne c rest hc, ih hrest]
    rfl

/-- The source loop `cgPath` is the first-match resolution under the
predicate it actually tests (`codeMatch`). -/
theorem cgPath_eq_resolveCodeMatch (c : CGProcHierarchy) :
    ∀ ms : List Mount, cgPath c ms = resolveFirstMatch codeMatch c ms := by
  intro ms
  induction ms with
  | nil => rfl
  | cons mp rest ih =>
    rw [cgPath, resolveFirstMatch]
    by_cases h1 : hasPrefix ("/..".toList) mp.Root = true
    · simp only [h1, if_true]
      exact ih
    · have h1' : hasPrefix ("/..".toList) mp.Root = false := by
        revert h1
        cases hasPrefix ("/..".toList) mp.Root <;> simp
      rw [h1']
      simp only [Bool.false_eq_true, if_false]
      by_cases h2 : (mp.CGroupV2 = true ∧ c.HierarchyID = 0) ∨ mp.Subsystems = c.Subsystems
      · have hc : codeMatch c mp = true := by
          simp only [codeMatch, decide_eq_true_eq]
          exact h2
        rw [if_pos h2, hc]
        simp only [if_true]
        cases hr : relGo mp.Root c.Path with
        | none => exact ih
        | some rel =>
          dsimp only
          by_cases h3 : hasPrefix ("../".toList) rel = true
          · simp only [h3, if_true]
            exact ih
          · have h3' : hasPrefix ("../".toList) rel = false := by
              revert h3
              cases hasPrefix ("../".toList) rel <;> simp
            rw [h3']
            simp only [Bool.false_eq_true, if_false]
      · have hc : codeMatch c mp = false := by
          simp only [codeMatch]
          simpa using h2
        rw [if_neg h2, hc]
        simp only [Bool.false_eq_true, if_false]
        exact ih

/-! ### Lemmas for the Parent walker -/

theorem dropWhile_append_all (p : Char → Bool) :
    ∀ (l l' : Str), (∀ c ∈ l, p c = true) → (l ++ l').dropWhile p = l'.dropWhile p := by
  intro l l' h
  induction l with
  | nil => rfl
  | cons x xs ih =>
    have hx : p x = true := h x (List.mem_cons_self x xs)
    rw [List.cons_append, List.dropWhile_cons, hx]
    simp only [if_true]
    exact ih (fun c hc => h c (List.mem_cons_of_mem x hc))

theorem takeBeforeLastSlash_append (a b : Str) (hb : '/' ∉ b) :
    takeBeforeLastSlash (a ++ '/' :: b) = a := by
  rw [takeBeforeLastSlash]
  rw [List.reverse_append, List.reverse_cons, List.append_assoc]
  rw [dropWhile_append_all _ b.reverse _ (fun c hc => by
    have : c ∈ b := List.mem_reverse.mp hc
    simp only [decide_eq_true_eq]
    intro hcc
    exact hb (hcc ▸ this))]
  rw [List.singleton_append, List.dropWhile_cons]
  simp

theorem lastSplit (c : Char) : ∀ l : Str, c ∈ l → ∃ l1 l2, l = l1 ++ c :: l2 ∧ c ∉ l2 := by
  intro l hl
  induction l with
  | nil => cases hl
  | cons x xs ih =>
    by_cases hxs : c ∈ xs
    · obtain ⟨l1, l2, heq, hnm⟩ := ih hxs
      exact ⟨x :: l1, l2, by rw [heq]; rfl, hnm⟩
    · have hx : x = c := by
        cases List.mem_cons.mp hl with
        | inl h => exact h.symm
        | inr h => exact absurd h hxs
      exact ⟨[], xs, by rw [hx, List.nil_append], hxs⟩

theorem trimSuffixChar_self {c : Char} {s : Str} (h : ¬ s.getLast? = some c) :
    GoStr.trimSuffixChar c s = s := by
  rw [GoStr.trimSuffixChar, if_neg h]

theorem trimSuffixChar_length_le (c : Char) (s : Str) :
    (GoStr.trimSuffixChar c s).length ≤ s.length := by
  rw [GoStr.trimSuffixChar]
  by_cases h : s.getLast? = some c
  · rw [if_pos h, List.length_dropLast]
    omega
  · rw [if_neg h]

/-- Shape preservation: stripping one trailing slash from
`mnt ++ '/' :: r` yields `mnt` itself or `mnt ++ '/' :: r'`. -/
theorem trimSuffix_shape (mnt : Str) (r : Str) :
    GoStr.trimSuffixChar '/' (mnt ++ '/' :: r) = mnt ∨
      ∃ r', GoStr.trimSuffixChar '/' (mnt ++ '/' :: r) = mnt ++ '/' :: r' := by
  rw [GoStr.trimSuffixChar]
  by_cases h : (mnt ++ '/' :: r).getLast? = some '/'
  · rw [if_pos h]
    cases r with
    | nil =>
      left
      rw [show (mnt ++ '/' :: []) = mnt ++ ['/'] from rfl, List.dropLast_concat]
    | cons x t =>
      right
      rw [List.dropLast_append_cons, List.dropLast_cons₂]
      exact ⟨(x :: t).dropLast, rfl⟩
  · rw [if_neg h]
    exact Or.inr ⟨r, rfl⟩

/-- Unfolded form of `CGroupPath.Parent`. -/
theorem Parent_eq (c : CGroupPath) :
    c.Parent =
      (if GoStr.trimSuffixChar '/' c.MountPath = GoStr.trimSuffixChar '/' c.AbsPath then
        some (⟨GoStr.trimSuffixChar '/' c.AbsPath, GoStr.trimSuffixChar '/' c.MountPath,
          c.Mode⟩, false)
      else if '/' ∈ GoStr.trimSuffixChar '/' c.AbsPath then
        some (⟨takeBeforeLastSlash (GoStr.trimSuffixChar '/' c.AbsPath),
          GoStr.trimSuffixChar '/' c.MountPath, c.Mode⟩, true)
      else none) := rfl

/-- Core of the termination argument: from any abs-path satisfying the
prefix invariant, iterating `Parent` reaches the mount root. -/
theorem parentRun_reaches (mode : CGMode) (mnt : Str) (hm : ¬ mnt.getLast? = some '/') :
    ∀ n p, p.length < n →
      (GoStr.trimSuffixChar '/' p = mnt ∨ ∃ r, GoStr.trimSuffixChar '/' p = mnt ++ '/' :: r) →
      parentRun n ⟨p, mnt, mode⟩ = some ⟨mnt, mnt, mode⟩ := by
  have hmnt : GoStr.trimSuffixChar '/' mnt = mnt := trimSuffixChar_self hm
  intro n
  induction n with
  | zero => intro p hp _; exact absurd hp (Nat.not_lt_zero _)
  | succ n ih =>
    intro p hp hinv
    rw [parentRun]
    cases hinv with
    | inl heq =>
      rw [Parent_eq]
      dsimp only
      rw [hmnt, heq, if_pos rfl]
    | inr hex =>
      obtain ⟨r, heq⟩ := hex
      have hqlen : (GoStr.trimSuffixChar '/' p).length ≤ p.length := trimSuffixChar_length_le _ _
      have hlen : (mnt ++ '/' :: r).length = mnt.length + 1 + r.length := by
        rw [List.length_append, List.length_cons]
        omega
      have hne : ¬ (GoStr.trimSuffixChar '/' mnt = GoStr.trimSuffixChar '/' p) := by
        rw [hmnt, heq]
        intro hcontr
        have := congrArg List.length hcontr
        rw [hlen] at this
        omega
      have hmem : '/' ∈ GoStr.trimSuffixChar '/' p := by
        rw [heq]
        exact List.mem_append.mpr (Or.inr (List.mem_cons_self _ _))
      rw [Parent_eq]
      dsimp only
      rw [if_neg hne, if_pos hmem]
      by_cases hr : '/' ∈ r
      · obtain ⟨r1, r2, hrsplit, hnm⟩ := lastSplit '/' r hr
        have hq : GoStr.trimSuffixChar '/' p = (mnt ++ '/' :: r1) ++ '/' :: r2 := by
          rw [heq, hrsplit, List.append_assoc, List.cons_append]
        rw [hq, takeBeforeLastSlash_append _ _ hnm, hmnt]
        dsimp only
        apply ih
        · have h1 := congrArg List.length hq
          rw [List.length_append, List.length_cons] at h1
          omega
        · exact trimSuffix_shape mnt r1
      · rw [heq, takeBeforeLastSlash_append _ _ hr, hmnt]
        dsimp only
        apply ih
        · have h1 := congrArg List.length heq
          rw [hlen] at h1
          omega
        · exact Or.inl hmnt

/-! ### Lemmas for the mountinfo reader -/

/-- The shared field/escape tail never yields a skip: it either errors or
emits a mount, whose subsystem list satisfies the filter properties. -/
theorem parseMIFields_props (sec0 opts : Str) (isCG2 : Bool) :
    parseMILine.parseMIFields sec0 opts isCG2 = .error () ∨
      ∃ m : Mount, parseMILine.parseMIFields sec0 opts isCG2 = .ok (some m) ∧
        m.CGroupV2 = isCG2 ∧
        ¬ "ro".toList ∈ m.Subsystems ∧ ¬ "rw".toList ∈ m.Subsystems ∧
        ¬ ([] : Str) ∈ m.Subsystems ∧ (m.CGroupV2 = true → m.Subsystems = []) := by
  rw [parseMILine.parseMIFields]
  match hsec : splitOnChar ' ' sec0 with
  | [] => exact Or.inl rfl
  | [f0] => exact Or.inl rfl
  | [f0, f1] => exact Or.inl rfl
  | [f0, f1, f2] => exact Or.inl rfl
  | [f0, f1, f2, f3] => exact Or.inl rfl
  | f0 :: f1 :: f2 :: root :: mnt :: t =>
    dsimp only
    cases hmp : unOctalEscape mnt with
    | none => exact Or.inl rfl
    | some mpv =>
      dsimp only
      cases hrt : unOctalEscape root with
      | none => exact Or.inl rfl
      | some rootv =>
        dsimp only
        right
        cases isCG2 with
        | true =>
          refine ⟨_, rfl, rfl, ?_, ?_, ?_, fun _ => rfl⟩ <;> simp
        | false =>
          refine ⟨_, rfl, rfl, ?_, ?_, ?_, fun hcc => by simp at hcc⟩
          all_goals
            intro hmem
            dsimp only at hmem
            simp only [Bool.false_eq_true, if_false, List.mem_filter,
              decide_eq_true_eq] at hmem
            exact hmem.2 (by simp)

/-- Per-line trichotomy: a line either aborts the parse, is skipped and is
not a cgroup line, or emits a mount and is a cgroup line. -/
theorem parseMILine_classify (l : Str) :
    parseMILine l = .error () ∨
      (parseMILine l = .ok none ∧ isCGFsLine l = false) ∨
      ∃ m, parseMILine l = .ok (some m) ∧ isCGFsLine l = true := by
  rw [parseMILine, isCGFsLine]
  by_cases hl : l = []
  · rw [if_pos hl, if_pos hl]
    exact Or.inr (Or.inl ⟨rfl, rfl⟩)
  · rw [if_neg hl, if_neg hl]
    cases h1 : splitOnce (" - ".toList) l with
    | none => exact Or.inl rfl
    | some p1 =>
      obtain ⟨sec0, sec1⟩ := p1
      dsimp only
      cases h2 : splitOnce (' ' :: []) sec1 with
      | none => exact Or.inl rfl
      | some p2 =>
        obtain ⟨fsType, s2rest⟩ := p2
        dsimp only
        cases h3 : splitOnce (' ' :: []) s2rest with
        | none => exact Or.inl rfl
        | some p3 =>
          obtain ⟨src, opts⟩ := p3
          dsimp only
          by_cases hcg2 : fsType = "cgroup2".toList
          · rw [if_pos hcg2]
            cases parseMIFields_props sec0 opts true with
            | inl he => exact Or.inl he
            | inr hm =>
              obtain ⟨m, hm, _⟩ := hm
              refine Or.inr (Or.inr ⟨m, hm, ?_⟩)
              simp [hcg2]
          · rw [if_neg hcg2]
            by_cases hcg1 : fsType = "cgroup".toList
            · rw [if_pos hcg1]
              cases parseMIFields_props sec0 opts false with
              | inl he => exact Or.inl he
              | inr hm =>
                obtain ⟨m, hm, _⟩ := hm
                refine Or.inr (Or.inr ⟨m, hm, ?_⟩)
                simp [hcg1]
            · rw [if_neg hcg1]
              refine Or.inr (Or.inl ⟨rfl, ?_⟩)
              simp only [decide_eq_false_iff_not, not_or]
              exact ⟨hcg1, hcg2⟩

/-- Emitted mounts carry the filter properties. -/
theorem parseMILine_emit_props (l : Str) (m : Mount)
    (h : parseMILine l = .ok (some m)) :
    ¬ "ro".toList ∈ m.Subsystems ∧ ¬ "rw".toList ∈ m.Subsystems ∧
      ¬ ([] : Str) ∈ m.Subsystems ∧ (m.CGroupV2 = true → m.Subsystems = []) := by
  rw [parseMILine] at h
  by_cases hl : l = []
  · rw [if_pos hl] at h
    simp at h
  · rw [if_neg hl] at h
    cases h1 : splitOnce (" - ".toList) l with
    | none => rw [h1] at h; simp at h
    | some p1 =>
      obtain ⟨sec0, sec1⟩ := p1
      rw [h1] at h
      dsimp only at h
      cases h2 : splitOnce (' ' :: []) sec1 with
      | none => rw [h2] at h; simp at h
      | some p2 =>
        obtain ⟨fsType, s2rest⟩ := p2
        rw [h2] at h
        dsimp only at h
        cases h3 : splitOnce (' ' :: []) s2rest with
        | none => rw [h3] at h; simp at h
        | some p3 =>
          obtain ⟨src, opts⟩ := p3
          rw [h3] at h
          dsimp only at h
          by_cases hcg2 : fsType = "cgroup2".toList
          · rw [if_pos hcg2] at h
            cases parseMIFields_props sec0 opts true with
            | inl he => rw [he] at h; simp at h
            | inr hm =>
              obtain ⟨m', hm', _, hro, hrw, hemp, hv2⟩ := hm
              rw [hm'] at h
              simp only [Except.ok.injEq, Option.some.injEq] at h
              rw [← h]
              exact ⟨hro, hrw, hemp, hv2⟩
          · rw [if_neg hcg2] at h
            by_cases hcg1 : fsType = "cgroup".toList
            · rw [if_pos hcg1] at h
              cases parseMIFields_props sec0 opts false with
              | inl he => rw [he] at h; simp at h
              | inr hm =>
                obtain ⟨m', hm', _, hro, hrw, hemp, hv2⟩ := hm
                rw [hm'] at h
                simp only [Except.ok.injEq, Option.some.injEq] at h
                rw [← h]
                exact ⟨hro, hrw, hemp, hv2⟩
            · rw [if_neg hcg1] at h
              simp at h

/-- Inversion of `miEmits`. -/
theorem miEmits_some {l : Str} {m : Mount} (h : miEmits l = some m) :
    parseMILine l = .ok (some m) := by
  rw [miEmits] at h
  cases hp : parseMILine l with
  | error e => rw [hp] at h; cases h
  | ok om =>
    cases om with
    | none => rw [hp] at h; cases h
    | some m' =>
      rw [hp] at h
      cases h
      rfl

/-- Success of the fold means no line errored, and the output is exactly
the in-order emission of the per-line parser. -/
theorem collectMounts_ok : ∀ (ls : List Str) (out : List Mount),
    collectMounts ls = .ok out →
    (∀ l ∈ ls, ¬ parseMILine l = .error ()) ∧ out = ls.filterMap miEmits := by
  intro ls
  induction ls with
  | nil =>
    intro out h
    rw [collectMounts] at h
    simp only [Except.ok.injEq] at h
    exact ⟨fun l hl => absurd hl (List.not_mem_nil l), h.symm⟩
  | cons l rest ih =>
    intro out h
    rw [collectMounts] at h
    cases hp : parseMILine l with
    | error e =>
      rw [hp] at h
      cases h
    | ok om =>
      cases om with
      | none =>
        rw [hp] at h
        dsimp only at h
        obtain ⟨h1, h2⟩ := ih out h
        refine ⟨?_, ?_⟩
        · intro l' hl'
          cases List.mem_cons.mp hl' with
          | inl heq => rw [heq, hp]; intro hc; cases hc
          | inr hmem => exact h1 l' hmem
        · rw [List.filterMap_cons]
          have : miEmits l = none := by rw [miEmits, hp]
          rw [this, h2]
      | some m =>
        rw [hp] at h
        dsimp only at h
        cases hrest : collectMounts rest with
        | error e =>
          rw [hrest] at h
          simp [Except.map] at h
        | ok outr =>
          rw [hrest] at h
          simp only [Except.map, Except.ok.injEq] at h
          obtain ⟨h1, h2⟩ := ih outr hrest
          refine ⟨?_, ?_⟩
          · intro l' hl'
            cases List.mem_cons.mp hl' with
            | inl heq => rw [heq, hp]; intro hc; cases hc
            | inr hmem => exact h1 l' hmem
          · rw [List.filterMap_cons]
            have : miEmits l = some m := by rw [miEmits, hp]
            rw [this, ← h, h2]

end Cgresolver

namespace Cgrouplimits

/-! ### Error plumbing of the aggregation loops -/

theorem leafErrUpd_false {E : Type} (lErr : Option E) (e : E) :
    leafErrUpd lErr false e = lErr := by
  cases lErr <;> rfl

theorem leafErrUpd_some {E : Type} (x : E) (af : Bool) (e : E) :
    leafErrUpd (some x) af e = some x := by
  cases af <;> rfl

theorem okVals_cons_ok {E V : Type} (v : V) (rest : List (Except E V)) :
    okVals (.ok v :: rest) = v :: okVals rest := rfl

theorem okVals_cons_err {E V : Type} (e : E) (rest : List (Except E V)) :
    okVals (.error e :: rest) = okVals rest := rfl

/-- Once a level has succeeded, the loop can no longer fail, and its
result is the plain fold over the successful values. -/
theorem aggLoop_noFail {E V S : Type} (step : S → V → S) :
    ∀ (reads : List (Except E V)) (s : S) (lErr : Option E),
      aggLoop step reads s false lErr = .ok (List.foldl step s (okVals reads)) := by
  intro reads
  induction reads with
  | nil => intro s lErr; rfl
  | cons r rest ih =>
    intro s lErr
    cases r with
    | error e =>
      rw [aggLoop, leafErrUpd_false, okVals_cons_err, ih]
    | ok v =>
      rw [aggLoop, okVals_cons_ok, List.foldl_cons, ih]

/-- If some level succeeds, the loop succeeds with the fold over the
successful values, whatever the error bookkeeping holds. -/
theorem aggLoop_someOk {E V S : Type} (step : S → V → S) :
    ∀ (reads : List (Except E V)) (s : S) (lErr : Option E),
      (∃ v, Except.ok v ∈ reads) →
      aggLoop step reads s true lErr = .ok (List.foldl step s (okVals reads)) := by
  intro reads
  induction reads with
  | nil =>
    intro s lErr h
    obtain ⟨v, hv⟩ := h
    exact absurd hv (List.not_mem_nil _)
  | cons r rest ih =>
    intro s lErr h
    cases r with
    | ok v =>
      rw [aggLoop, okVals_cons_ok, List.foldl_cons, aggLoop_noFail]
    | error e =>
      rw [aggLoop, okVals_cons_err]
      apply ih
      obtain ⟨v, hv⟩ := h
      cases List.mem_cons.mp hv with
      | inl hh => cases hh
      | inr hh => exact ⟨v, hh⟩

/-- With the leaf error already recorded and every remaining level
failing, the loop returns that error. -/
theorem aggLoop_allErr_keep {E V S : Type} (step : S → V → S) :
    ∀ (reads : List (Except E V)) (s : S) (e : E),
      (∀ r ∈ reads, ∃ e', r = .error e') →
      aggLoop step reads s true (some e) = .error (some e) := by
  intro reads
  induction reads with
  | nil => intro s e _; rfl
  | cons r rest ih =>
    intro s e h
    obtain ⟨e', he'⟩ := h r (List.mem_cons_self r rest)
    rw [he', aggLoop, leafErrUpd_some]
    exact ih s e (fun r' hr' => h r' (List.mem_cons_of_mem _ hr'))

/-- When every level fails, the loop returns the error of the first
(deepest) level. -/
theorem aggLoop_allErr {E V S : Type} (step : S → V → S)
    (reads : List (Except E V)) (s : S)
    (h : ∀ r ∈ reads, ∃ e', r = .error e')
    (e0 : E) (rest' : List (Except E V)) (hsh : reads = .error e0 :: rest') :
    aggLoop step reads s true none = .error (some e0) := by
  subst hsh
  rw [aggLoop]
  rw [show leafErrUpd (none : Option E) true e0 = some e0 from rfl]
  exact aggLoop_allErr_keep step rest' s e0
    (fun r' hr' => h r' (List.mem_cons_of_mem _ hr'))

/-- An error result means every level failed. -/
theorem aggLoop_error_imp {E V S : Type} (step : S → V → S) :
    ∀ (reads : List (Except E V)) (s : S) (allF : Bool) (lErr : Option E)
      (eo : Option E),
      aggLoop step reads s allF lErr = .error eo →
      ∀ r ∈ reads, ∃ e, r = .error e := by
  intro reads
  induction reads with
  | nil => intro s allF lErr eo _ r hr; exact absurd hr (List.not_mem_nil _)
  | cons r rest ih =>
    intro s allF lErr eo hagg r' hr'
    cases hrr : r with
    | ok v =>
      rw [hrr, aggLoop, aggLoop_noFail] at hagg
      cases hagg
    | error e =>
      rw [hrr] at hagg
      rw [aggLoop] at hagg
      cases List.mem_cons.mp hr' with
      | inl hh => exact ⟨e, by rw [hh, hrr]⟩
      | inr hh => exact ih s allF _ eo hagg r' hh

/-! ### Minimum lemmas -/

theorem listMin?_nil {α : Type} [LinearOrder α] : listMin? ([] : List α) = none := rfl

theorem listMin?_cons {α : Type} [LinearOrder α] (x : α) (xs : List α) :
    listMin? (x :: xs) =
      some (match listMin? xs with | none => x | some m => min x m) := rfl

theorem listMin?_eq_none {α : Type} [LinearOrder α] {l : List α} :
    listMin? l = none ↔ l = [] := by
  cases l with
  | nil => simp [listMin?_nil]
  | cons x xs => simp [listMin?_cons]

theorem listMin?_mem {α : Type} [LinearOrder α] :
    ∀ {l : List α} {m : α}, listMin? l = some m → m ∈ l := by
  intro l
  induction l with
  | nil => intro m h; cases h
  | cons x xs ih =>
    intro m h
    rw [listMin?_cons] at h
    cases hxs : listMin? xs with
    | none =>
      rw [hxs] at h
      cases h
      exact List.mem_cons_self _ _
    | some m' =>
      rw [hxs] at h
      cases h
      dsimp only
      rcases min_cases x m' with ⟨hmin, _⟩ | ⟨hmin, _⟩
      · rw [hmin]; exact List.mem_cons_self _ _
      · rw [hmin]; exact List.mem_cons_of_mem _ (ih hxs)

theorem listMin?_le {α : Type} [LinearOrder α] :
    ∀ {l : List α} {m : α}, listMin? l = some m → ∀ x ∈ l, m ≤ x := by
  intro l
  induction l with
  | nil => intro m h; cases h
  | cons x xs ih =>
    intro m h y hy
    rw [listMin?_cons] at h
    cases hxs : listMin? xs with
    | none =>
      rw [hxs] at h
      cases h
      cases List.mem_cons.mp hy with
      | inl hh => rw [hh]
      | inr hh => exact absurd (listMin?_eq_none.mp hxs ▸ hh) (List.not_mem_nil _)
    | some m' =>
      rw [hxs] at h
      cases h
      dsimp only
      cases List.mem_cons.mp hy with
      | inl hh => rw [hh]; exact min_le_left _ _
      | inr hh => exact le_trans (min_le_right _ _) (ih hxs y hh)

theorem ltOpt_none {α : Type} [LinearOrder α] (v : α) : ltOpt v none = true := rfl

theorem ltOpt_some {α : Type} [LinearOrder α] (v c : α) :
    ltOpt v (some c) = decide (v < c) := rfl

/-- Characterization of the scalar min-tracking fold with an infinite
initial minimum carried as `Option`. -/
theorem foldl_minStepOpt {α : Type} [LinearOrder α] (P : α → Bool) :
    ∀ (vals : List α) (cur : Option α),
      List.foldl (fun acc v => if P v && ltOpt v acc then some v else acc) cur vals =
        mergeMin cur (listMin? (vals.filter P)) := by
  intro vals
  induction vals with
  | nil => intro cur; cases cur <;> rfl
  | cons v vals ih =>
    intro cur
    rw [List.foldl_cons, List.filter_cons]
    by_cases hP : P v = true
    · rw [if_pos hP, listMin?_cons]
      by_cases hlt : ltOpt v cur = true
      · have hcond : (P v && ltOpt v cur) = true := by rw [hP, hlt]; rfl
        rw [if_pos hcond, ih]
        cases cur with
        | none =>
          cases hR : listMin? (vals.filter P) with
          | none => rfl
          | some m => rfl
        | some c =>
          rw [ltOpt_some] at hlt
          have hvc : v < c := of_decide_eq_true hlt
          cases hR : listMin? (vals.filter P) with
          | none =>
            show mergeMin (some v) none = mergeMin (some c) (some v)
            rw [mergeMin, mergeMin, min_eq_right (le_of_lt hvc)]
          | some m =>
            show mergeMin (some v) (some m) = mergeMin (some c) (some (min v m))
            rw [mergeMin, mergeMin]
            have h1 : min v m ≤ v := min_le_left _ _
            rw [min_eq_right (le_of_lt (lt_of_le_of_lt h1 hvc))]
      · have hlt' : ltOpt v cur = false := by
          revert hlt; cases ltOpt v cur <;> simp
        have hcond : ¬ (P v && ltOpt v cur) = true := by rw [hP, hlt']; simp
        rw [if_neg hcond, ih]
        cases cur with
        | none => rw [ltOpt_none] at hlt'; cases hlt'
        | some c =>
          rw [ltOpt_some] at hlt'
          have hcv : c ≤ v := le_of_not_lt (of_decide_eq_false hlt')
          cases hR : listMin? (vals.filter P) with
          | none =>
            show mergeMin (some c) none = mergeMin (some c) (some v)
            rw [mergeMin, mergeMin, min_eq_left hcv]
          | some m =>
            show mergeMin (some c) (some m) = mergeMin (some c) (some (min v m))
            rw [mergeMin, mergeMin, ← min_assoc, min_eq_left hcv]
    · have hP' : P v = false := by revert hP; cases P v <;> simp
      have hcond : ¬ (P v && ltOpt v cur) = true := by rw [hP']; simp
      rw [if_neg hP, if_neg hcond]
      exact ih cur

/-- Characterization of the scalar min-tracking fold with a sentinel
(attainable) initial minimum, as in GetCgroupMemoryLimit. -/
theorem foldl_minStepSent {α : Type} [LinearOrder α] (P : α → Bool) :
    ∀ (vals : List α) (cur : α),
      List.foldl (fun acc v => if P v && decide (v < acc) then v else acc) cur vals =
        (match listMin? (vals.filter P) with
          | none => cur
          | some m => min cur m) := by
  intro vals
  induction vals with
  | nil => intro cur; rfl
  | cons v vals ih =>
    intro cur
    rw [List.foldl_cons, List.filter_cons]
    by_cases hP : P v = true
    · rw [if_pos hP, listMin?_cons]
      by_cases hlt : v < cur
      · have hcond : (P v && decide (v < cur)) = true := by
          rw [hP, decide_eq_true hlt]
          rfl
        rw [if_pos hcond, ih]
        cases hR : listMin? (vals.filter P) with
        | none =>
          show v = min cur v
          rw [min_eq_right (le_of_lt hlt)]
        | some m =>
          show min v m = min cur (min v m)
          have h1 : min v m ≤ v := min_le_left _ _
          rw [min_eq_right (le_of_lt (lt_of_le_of_lt h1 hlt))]
      · have hcond : ¬ (P v && decide (v < cur)) = true := by
          rw [hP, decide_eq_false hlt]
          simp
        have hcv : cur ≤ v := le_of_not_lt hlt
        rw [if_neg hcond, ih]
        cases hR : listMin? (vals.filter P) with
        | none =>
          show cur = min cur v
          rw [min_eq_left hcv]
        | some m =>
          show min cur m = min cur (min v m)
          rw [← min_assoc, min_eq_left hcv]
    · have hP' : P v = false := by revert hP; cases P v <;> simp
      have hcond : ¬ (P v && decide (v < cur)) = true := by rw [hP']; simp
      rw [if_neg hP, if_neg hcond]
      exact ih cur

theorem foldSel_cons {α σ : Type} [LinearOrder α] (P : α → Bool) (curL : Option α)
    (curS : σ) (p : σ × α) (rest : List (σ × α)) :
    foldSel P (curL, curS) (p :: rest) =
      foldSel P (if P p.2 && ltOpt p.2 curL then (some p.2, p.1) else (curL, curS)) rest := rfl

/-- Characterization of the min-selection fold `foldSel`, the common
shape of the two stats-aggregation loops: when the filtered levels are
empty or none beats the running minimum the accumulator is unchanged;
otherwise the result is the minimum together with the stats of the first
(deepest) level attaining it. -/
theorem foldSel_char {α σ : Type} [LinearOrder α] (P : α → Bool) :
    ∀ (pairs : List (σ × α)) (curL : Option α) (curS : σ),
      (listMin? ((pairs.filter (fun pr => P pr.2)).map Prod.snd) = none →
        foldSel P (curL, curS) pairs = (curL, curS)) ∧
      (∀ m, listMin? ((pairs.filter (fun pr => P pr.2)).map Prod.snd) = some m →
        ltOpt m curL = false →
        foldSel P (curL, curS) pairs = (curL, curS)) ∧
      (∀ m prf, listMin? ((pairs.filter (fun pr => P pr.2)).map Prod.snd) = some m →
        ltOpt m curL = true →
        (pairs.filter (fun pr => P pr.2)).find? (fun pr => decide (pr.2 = m)) = some prf →
        foldSel P (curL, curS) pairs = (some m, prf.1)) := by
  intro pairs
  induction pairs with
  | nil =>
    intro curL curS
    refine ⟨fun _ => rfl, fun m hm _ => ?_, fun m prf hm _ _ => ?_⟩
    · exact Option.noConfusion hm
    · exact Option.noConfusion hm
  | cons p rest ih =>
    intro curL curS
    rw [foldSel_cons, List.filter_cons]
    by_cases hP : P p.2 = true
    · rw [if_pos hP, List.map_cons, listMin?_cons]
      by_cases hlt : ltOpt p.2 curL = true
      · have hcond : (P p.2 && ltOpt p.2 curL) = true := by rw [hP, hlt]; rfl
        rw [if_pos hcond]
        obtain ⟨ihA, ihB, ihC⟩ := ih (some p.2) p.1
        refine ⟨fun hm => Option.noConfusion hm, ?_, ?_⟩
        · intro m hm hfalse
          exfalso
          injection hm with hm'
          have hmle : m ≤ p.2 := by
            rw [← hm']
            cases hRR : listMin? ((rest.filter (fun pr => P pr.2)).map Prod.snd) with
            | none => exact le_refl _
            | some mm => exact min_le_left _ _
          cases hcL : curL with
          | none =>
            rw [hcL, ltOpt_none] at hfalse
            cases hfalse
          | some c =>
            rw [hcL, ltOpt_some] at hlt hfalse
            have hp2c : p.2 < c := of_decide_eq_true hlt
            have hmc : m < c := lt_of_le_of_lt hmle hp2c
            rw [decide_eq_true hmc] at hfalse
            cases hfalse
        · intro m prf hm htrue hfind
          injection hm with hm'
          cases hRR : listMin? ((rest.filter (fun pr => P pr.2)).map Prod.snd) with
          | none =>
            rw [hRR] at hm'
            dsimp only at hm'
            rw [@List.find?_cons_of_pos _ (fun pr => decide (pr.2 = m)) p (List.filter (fun pr => P pr.2) rest) (decide_eq_true hm')] at hfind
            injection hfind with hprf
            rw [← hprf]
            rw [ihA hRR, hm']
          | some mR =>
            rw [hRR] at hm'
            dsimp only at hm'
            by_cases hcmp : mR < p.2
            · have hmm : m = mR := by rw [← hm', min_eq_right (le_of_lt hcmp)]
              have hne : ¬ (decide (p.2 = m) = true) := by
                simp only [decide_eq_true_eq]
                intro hcc
                rw [hmm] at hcc
                exact absurd hcmp (hcc ▸ lt_irrefl p.2)
              rw [@List.find?_cons_of_neg _ (fun pr => decide (pr.2 = m)) p (List.filter (fun pr => P pr.2) rest) hne] at hfind
              have h1 : ltOpt mR (some p.2) = true := by
                rw [ltOpt_some, decide_eq_true hcmp]
              have hres := ihC mR prf hRR h1 (by rw [← hmm]; exact hfind)
              rw [hres, hmm]
            · have hp2le : p.2 ≤ mR := le_of_not_lt hcmp
              have hmm : m = p.2 := by rw [← hm', min_eq_left hp2le]
              have hpos : decide (p.2 = m) = true := decide_eq_true (by rw [hmm])
              rw [@List.find?_cons_of_pos _ (fun pr => decide (pr.2 = m)) p (List.filter (fun pr => P pr.2) rest) hpos] at hfind
              injection hfind with hprf
              rw [← hprf]
              have h0 : ltOpt mR (some p.2) = false := by
                rw [ltOpt_some, decide_eq_false hcmp]
              rw [ihB mR hRR h0, hmm]
      · have hlt' : ltOpt p.2 curL = false := by
          revert hlt; cases ltOpt p.2 curL <;> simp
        have hcond : ¬ (P p.2 && ltOpt p.2 curL) = true := by rw [hP, hlt']; simp
        rw [if_neg hcond]
        cases hcL : curL with
        | none =>
          rw [hcL, ltOpt_none] at hlt'
          cases hlt'
        | some c =>
          rw [hcL, ltOpt_some] at hlt'
          have hcle : c ≤ p.2 := le_of_not_lt (of_decide_eq_false hlt')
          obtain ⟨ihA, ihB, ihC⟩ := ih (some c) curS
          refine ⟨fun hm => Option.noConfusion hm, ?_, ?_⟩
          · intro m hm hfalse
            injection hm with hm'
            cases hRR : listMin? ((rest.filter (fun pr => P pr.2)).map Prod.snd) with
            | none => exact ihA hRR
            | some mR =>
              rw [hRR] at hm'
              dsimp only at hm'
              have hcm : c ≤ m := by
                rw [ltOpt_some] at hfalse
                exact le_of_not_lt (of_decide_eq_false hfalse)
              have h2 : m ≤ mR := by rw [← hm']; exact min_le_right _ _
              have h0 : ltOpt mR (some c) = false := by
                rw [ltOpt_some]
                exact decide_eq_false (not_lt.mpr (le_trans hcm h2))
              exact ihB mR hRR h0
          · intro m prf hm htrue hfind
            injection hm with hm'
            have hcm : m < c := by
              rw [ltOpt_some] at htrue
              exact of_decide_eq_true htrue
            have hmle : m < p.2 := lt_of_lt_of_le hcm hcle
            cases hRR : listMin? ((rest.filter (fun pr => P pr.2)).map Prod.snd) with
            | none =>
              rw [hRR] at hm'
              dsimp only at hm'
              exact absurd hm'.symm (ne_of_lt hmle)
            | some mR =>
              rw [hRR] at hm'
              dsimp only at hm'
              have hmRlt : mR < p.2 := by
                by_contra hcon
                have hmin : min p.2 mR = p.2 := min_eq_left (le_of_not_lt hcon)
                rw [hmin] at hm'
                exact absurd hm'.symm (ne_of_lt hmle)
              have hmm : m = mR := by rw [← hm', min_eq_right (le_of_lt hmRlt)]
              have hne : ¬ (decide (p.2 = m) = true) := by
                simp only [decide_eq_true_eq]
                intro hcc
                exact absurd hcc.symm (ne_of_lt hmle)
              rw [@List.find?_cons_of_neg _ (fun pr => decide (pr.2 = m)) p (List.filter (fun pr => P pr.2) rest) hne] at hfind
              have h1 : ltOpt mR (some c) = true := by
                rw [ltOpt_some]
                exact decide_eq_true (hmm ▸ hcm)
              have hres := ihC mR prf hRR h1 (by rw [← hmm]; exact hfind)
              rw [hres, hmm]
    · have hP' : P p.2 = false := by revert hP; cases P p.2 <;> simp
      have hcond : ¬ (P p.2 && ltOpt p.2 curL) = true := by rw [hP']; simp
      rw [if_neg hP, if_neg hcond]
      exact ih curL curS

/-- The GetCgroupCPUStats loop state folds componentwise: the
minimum-tracking pair is `foldSel`, `populated` records whether any level
succeeded, and `leafStats` is the first successful stats. -/
theorem cpuStats_foldl_decomp :
    ∀ (pairs : List (CPUStats × Rat)) (mL : Option Rat) (mS : CPUStats) (pop : Bool)
      (leafS : CPUStats),
      List.foldl cpuStatsStep ⟨mL, mS, pop, leafS⟩ pairs =
        ⟨(foldSel cpuLimNonSentinel (mL, mS) pairs).1,
          (foldSel cpuLimNonSentinel (mL, mS) pairs).2,
          pop || !pairs.isEmpty,
          if pop = true then leafS else (pairs.map Prod.fst).headD leafS⟩ := by
  intro pairs
  induction pairs with
  | nil =>
    intro mL mS pop leafS
    cases pop <;> rfl
  | cons p rest ih =>
    intro mL mS pop leafS
    rw [List.foldl_cons, foldSel_cons]
    by_cases hg : (cpuLimNonSentinel p.2 && ltOpt p.2 mL) = true
    · have hstep : cpuStatsStep ⟨mL, mS, pop, leafS⟩ p =
          ⟨some p.2, p.1, true, if pop = true then leafS else p.1⟩ := by
        rw [cpuStatsStep]
        dsimp only
        rw [if_pos hg]
      rw [hstep, if_pos hg, ih]
      have h3 : (true || !rest.isEmpty) = (pop || !(p :: rest).isEmpty) := by
        cases pop <;> rfl
      have h4 : (if true = true then (if pop = true then leafS else p.1)
          else (rest.map Prod.fst).headD (if pop = true then leafS else p.1)) =
          (if pop = true then leafS else ((p :: rest).map Prod.fst).headD leafS) := by
        cases pop <;> rfl
      rw [h3, h4]
    · have hstep : cpuStatsStep ⟨mL, mS, pop, leafS⟩ p =
          ⟨mL, mS, true, if pop = true then leafS else p.1⟩ := by
        rw [cpuStatsStep]
        dsimp only
        rw [if_neg hg]
      rw [hstep, if_neg hg, ih]
      have h3 : (true || !rest.isEmpty) = (pop || !(p :: rest).isEmpty) := by
        cases pop <;> rfl
      have h4 : (if true = true then (if pop = true then leafS else p.1)
          else (rest.map Prod.fst).headD (if pop = true then leafS else p.1)) =
          (if pop = true then leafS else ((p :: rest).map Prod.fst).headD leafS) := by
        cases pop <;> rfl
      rw [h3, h4]

/-- Starting from a `some` running minimum, `foldSel` keeps it `some`. -/
theorem foldSel_some_fst {α σ : Type} [LinearOrder α] (P : α → Bool) :
    ∀ (pairs : List (σ × α)) (c : α) (s : σ),
      ∃ d t, foldSel P (some c, s) pairs = (some d, t) := by
  intro pairs
  induction pairs with
  | nil => intro c s; exact ⟨c, s, rfl⟩
  | cons p rest ih =>
    intro c s
    rw [foldSel_cons]
    by_cases hg : (P p.2 && ltOpt p.2 (some c)) = true
    · rw [if_pos hg]
      exact ih p.2 p.1
    · rw [if_neg hg]
      exact ih c s

/-- Bridge between the Go state of the GetCgroupMemoryStats loop (a
uint64 minimum with `math.MaxUint64` as the "no limit seen" sentinel)
and the `foldSel` view, valid because a uint64 cast of an in-range int64
other than -1 is always below the sentinel. -/
theorem memStats_foldl_bridge :
    ∀ (pairs : List (MemoryStats × Int)),
      (∀ pr ∈ pairs, -(2 ^ 63) ≤ pr.2 ∧ pr.2 < 2 ^ 63) →
      ∀ (mn : Nat) (ms : MemoryStats) (optL : Option Nat),
        ((optL = none ∧ mn = maxUint64) ∨ optL = some mn) →
        List.foldl memStatsStep ⟨mn, ms⟩ pairs =
          ⟨match (foldSel (fun v => decide (¬ v = maxUint64)) (optL, ms)
              (pairs.map (fun pr => (pr.1, u64 pr.2)))).1 with
            | none => mn
            | some k => k,
            (foldSel (fun v => decide (¬ v = maxUint64)) (optL, ms)
              (pairs.map (fun pr => (pr.1, u64 pr.2)))).2⟩ := by
  intro pairs
  induction pairs with
  | nil =>
    intro _ mn ms optL hrel
    cases hrel with
    | inl h => rw [h.1]; rfl
    | inr h => rw [h]; rfl
  | cons p rest ih =>
    intro hrng mn ms optL hrel
    have hp := hrng p (List.mem_cons_self p rest)
    have hrest : ∀ pr ∈ rest, -(2 ^ 63) ≤ pr.2 ∧ pr.2 < 2 ^ 63 :=
      fun pr hpr => hrng pr (List.mem_cons_of_mem _ hpr)
    have hu64max : u64 p.2 = maxUint64 ↔ p.2 = -1 := by
      rw [u64, maxUint64]
      omega
    have hu64lt : ¬ p.2 = -1 → u64 p.2 < maxUint64 := by
      intro hne
      rw [u64, maxUint64]
      omega
    rw [List.foldl_cons, List.map_cons, foldSel_cons]
    by_cases hne : p.2 = -1
    · have hgo : ¬ (decide (¬ p.2 = -1) && decide (u64 p.2 < mn)) = true := by
        rw [decide_eq_false (by rw [hne]; exact fun hcc => hcc rfl)]
        simp
      have hsel : ¬ ((fun v => decide (¬ v = maxUint64)) (p.1, u64 p.2).2 &&
          ltOpt (p.1, u64 p.2).2 optL) = true := by
        dsimp only
        rw [decide_eq_false (by rw [hu64max]; intro hcc; exact hcc hne)]
        simp
      have hstep : memStatsStep ⟨mn, ms⟩ p = ⟨mn, ms⟩ := by
        rw [memStatsStep]
        dsimp only
        rw [if_neg hgo]
      rw [hstep, if_neg hsel]
      exact ih hrest mn ms optL hrel
    · have hlt_iff : (decide (u64 p.2 < mn)) = ltOpt (u64 p.2) optL := by
        cases hrel with
        | inl h =>
          rw [h.1, h.2, ltOpt_none, decide_eq_true (hu64lt hne)]
        | inr h =>
          rw [h, ltOpt_some]
      by_cases hless : (ltOpt (u64 p.2) optL) = true
      · have hgo : (decide (¬ p.2 = -1) && decide (u64 p.2 < mn)) = true := by
          rw [decide_eq_true hne, hlt_iff, hless]
          rfl
        have hsel : ((fun v => decide (¬ v = maxUint64)) (p.1, u64 p.2).2 &&
            ltOpt (p.1, u64 p.2).2 optL) = true := by
          dsimp only
          rw [decide_eq_true (show ¬ u64 p.2 = maxUint64 from fun hcc => hne (hu64max.mp hcc)), hless]
          rfl
        have hstep : memStatsStep ⟨mn, ms⟩ p = ⟨u64 p.2, p.1⟩ := by
          rw [memStatsStep]
          dsimp only
          rw [if_pos hgo]
        rw [hstep, if_pos hsel]
        dsimp only
        obtain ⟨d, t, hds⟩ := foldSel_some_fst (fun v => decide (¬ v = maxUint64))
          (rest.map (fun pr => (pr.1, u64 pr.2))) (u64 p.2) p.1
        have hih := ih hrest (u64 p.2) p.1 (some (u64 p.2)) (Or.inr rfl)
        rw [hds] at hih
        rw [hds]
        exact hih
      · have hless' : (ltOpt (u64 p.2) optL) = false := by
          revert hless
          cases ltOpt (u64 p.2) optL <;> simp
        have hgo : ¬ (decide (¬ p.2 = -1) && decide (u64 p.2 < mn)) = true := by
          rw [hlt_iff, hless']
          simp
        have hsel : ¬ ((fun v => decide (¬ v = maxUint64)) (p.1, u64 p.2).2 &&
            ltOpt (p.1, u64 p.2).2 optL) = true := by
          dsimp only
          rw [hless']
          simp
        have hstep : memStatsStep ⟨mn, ms⟩ p = ⟨mn, ms⟩ := by
          rw [memStatsStep]
          dsimp only
          rw [if_neg hgo]
        rw [hstep, if_neg hsel]
        exact ih hrest mn ms optL hrel

theorem mem_okVals {E V : Type} {v : V} {reads : List (Except E V)}
    (h : v ∈ okVals reads) : Except.ok v ∈ reads := by
  rw [okVals] at h
  obtain ⟨r, hr, hfr⟩ := List.mem_filterMap.mp h
  cases r with
  | ok w =>
    have hw : w = v := by
      injection hfr
    rw [← hw]
    exact hr
  | error e => cases hfr

theorem okVals_ne_nil_exists {E V : Type} {reads : List (Except E V)}
    (h : ¬ okVals reads = []) : ∃ v, Except.ok v ∈ reads := by
  cases hv : okVals reads with
  | nil => exact absurd hv h
  | cons v tl =>
    exact ⟨v, mem_okVals (by rw [hv]; exact List.mem_cons_self _ _)⟩

/-- The error contract of a bare aggregation loop: error iff every level
fails, and then it is the deepest level's error. -/
theorem c3_generic {E V S : Type} (step : S → V → S) (init : S) :
    ∀ (reads : List (Except E V)), ¬ reads = [] →
      ((∃ eo, aggLoop step reads init true none = .error eo) ↔
        (∀ r ∈ reads, ∃ e, r = .error e)) ∧
      (∀ e0 rest, reads = .error e0 :: rest → (∀ r ∈ reads, ∃ e, r = .error e) →
        aggLoop step reads init true none = .error (some e0)) := by
  intro reads hne
  refine ⟨⟨?_, ?_⟩, ?_⟩
  · rintro ⟨eo, heo⟩
    exact aggLoop_error_imp step reads init true none eo heo
  · intro hall
    cases reads with
    | nil => exact absurd rfl hne
    | cons r rest =>
      obtain ⟨e0, he0⟩ := hall r (List.mem_cons_self r rest)
      exact ⟨some e0, aggLoop_allErr step _ init hall e0 rest (by rw [he0])⟩
  · intro e0 rest hsh hall
    exact aggLoop_allErr step reads init hall e0 rest hsh

/-- The same contract carried through the result-projection wrapper of
the stats aggregators. -/
theorem c3_genericWrap {E V S T : Type} (step : S → V → S) (init : S) (g : S → T)
    (G : List (Except E V) → Except (Option E) T)
    (hG : ∀ reads, G reads =
      match aggLoop step reads init true none with
      | .error e => .error e
      | .ok st => .ok (g st)) :
    ∀ (reads : List (Except E V)), ¬ reads = [] →
      ((∃ eo, G reads = .error eo) ↔ (∀ r ∈ reads, ∃ e, r = .error e)) ∧
      (∀ e0 rest, reads = .error e0 :: rest → (∀ r ∈ reads, ∃ e, r = .error e) →
        G reads = .error (some e0)) := by
  intro reads hne
  have hchar := c3_generic step init reads hne
  refine ⟨⟨?_, ?_⟩, ?_⟩
  · rintro ⟨eo, heo⟩
    rw [hG] at heo
    cases hagg : aggLoop step reads init true none with
    | error e => exact hchar.1.mp ⟨e, hagg⟩
    | ok st =>
      rw [hagg] at heo
      cases heo
  · intro hall
    obtain ⟨eo, heo⟩ := hchar.1.mpr hall
    exact ⟨eo, by rw [hG, heo]⟩
  · intro e0 rest hsh hall
    rw [hG, hchar.2 e0 rest hsh hall]

/-- Under the well-formedness of getCGroupCPULimitSingle results (-1
only as the error sentinel, otherwise nonnegative), the CPU guard
filters exactly the positive limits. -/
theorem cpuLimNonSentinel_eq_pos {v : Rat} (h : v = -1 ∨ 0 ≤ v) :
    cpuLimNonSentinel v = decide (0 < v) := by
  rw [cpuLimNonSentinel]
  rcases h with h | h
  · rw [decide_eq_false (show ¬ ¬ v = -1 from fun hc => hc h), Bool.false_and,
      decide_eq_false (show ¬ 0 < v from by rw [h]; norm_num)]
  · rcases eq_or_lt_of_le h with h0 | h0
    · rw [decide_eq_false (show ¬ ¬ v = 0 from fun hc => hc h0.symm), Bool.and_false,
        decide_eq_false (show ¬ 0 < v from by rw [← h0]; exact lt_irrefl 0)]
    · rw [decide_eq_true (show ¬ v = -1 from fun hc => absurd h0 (by rw [hc]; norm_num)),
        decide_eq_true (show ¬ v = 0 from ne_of_gt h0), decide_eq_true h0]
      rfl

/-- For an in-range int64, the uint64 cast hits `math.MaxUint64` exactly
on -1. -/
theorem u64_eq_max_iff {v : Int} (h : -(2 ^ 63) ≤ v ∧ v < 2 ^ 63) :
    u64 v = maxUint64 ↔ v = -1 := by
  rw [u64, maxUint64]
  omega

end Cgrouplimits

namespace GoStr

/-! ### Join/split/fields lemmas for serialized /proc/cgroups images -/

theorem joinSep_nil (sep : Str) : joinSep sep [] = [] := rfl

theorem joinSep_single (sep t : Str) : joinSep sep [t] = t := by
  simp [joinSep, List.intercalate]

theorem joinSep_cons2 (sep t u : Str) (rest : List Str) :
    joinSep sep (t :: u :: rest) = t ++ sep ++ joinSep sep (u :: rest) := by
  simp [joinSep, List.intercalate, List.intersperse_cons_cons, List.append_assoc]

theorem joinSep_ne_nil (sep t : Str) (ts : List Str) (h : ¬ t = []) :
    ¬ joinSep sep (t :: ts) = [] := by
  cases ts with
  | nil =>
    rw [joinSep_single]
    exact h
  | cons u r =>
    rw [joinSep_cons2]
    intro hc
    exact h (List.append_eq_nil.mp (List.append_eq_nil.mp hc).1).1

theorem joinSep_not_mem (c : Char) (sep : Str) (hc : c ∉ sep) :
    ∀ toks : List Str, (∀ t ∈ toks, c ∉ t) → c ∉ joinSep sep toks := by
  intro toks
  induction toks with
  | nil =>
    intro _
    exact List.not_mem_nil c
  | cons t rest ih =>
    intro hmem
    cases rest with
    | nil =>
      rw [joinSep_single]
      exact hmem t (List.mem_cons_self _ _)
    | cons u r2 =>
      rw [joinSep_cons2]
      intro hin
      rcases List.mem_append.mp hin with h1 | h2
      · rcases List.mem_append.mp h1 with ha | hb
        · exact hmem t (List.mem_cons_self _ _) ha
        · exact hc hb
      · exact ih (fun x hx => hmem x (List.mem_cons_of_mem _ hx)) h2

theorem splitOnChar_ne_nil (c : Char) : ∀ s : Str, ¬ splitOnChar c s = [] := by
  intro s
  induction s with
  | nil =>
    intro h
    cases h
  | cons x xs ih =>
    rw [splitOnChar]
    by_cases hx : x = c
    · rw [if_pos hx]
      exact List.cons_ne_nil _ _
    · rw [if_neg hx]
      cases hs : splitOnChar c xs with
      | nil => exact absurd hs ih
      | cons h t =>
        dsimp only
        exact List.cons_ne_nil _ _

theorem splitOnChar_append (c : Char) :
    ∀ (l s h : Str) (t' : List Str), c ∉ l → splitOnChar c s = h :: t' →
      splitOnChar c (l ++ s) = (l ++ h) :: t' := by
  intro l
  induction l with
  | nil =>
    intro s h t' _ hs
    simp only [List.nil_append]
    exact hs
  | cons x l' ih =>
    intro s h t' hmem hs
    have hx : ¬ x = c := fun hxc => hmem (by rw [← hxc]; exact List.mem_cons_self x l')
    rw [List.cons_append, splitOnChar, if_neg hx]
    rw [ih s h t' (fun hcm => hmem (List.mem_cons_of_mem _ hcm)) hs]
    rfl

theorem splitOnChar_joinSep (c : Char) :
    ∀ ls : List Str, ¬ ls = [] → (∀ l ∈ ls, c ∉ l) →
      splitOnChar c (joinSep (c :: []) ls) = ls := by
  intro ls
  induction ls with
  | nil =>
    intro h
    exact absurd rfl h
  | cons l ls' ih =>
    intro _ hmem
    cases ls' with
    | nil =>
      rw [joinSep_single]
      have happ := splitOnChar_append c l [] [] [] (hmem l (List.mem_cons_self _ _)) rfl
      rw [List.append_nil] at happ
      exact happ
    | cons u rest =>
      rw [joinSep_cons2, List.append_assoc]
      have hs : splitOnChar c (c :: joinSep (c :: []) (u :: rest)) =
          [] :: (u :: rest) := by
        rw [splitOnChar, if_pos rfl,
          ih (List.cons_ne_nil u rest) (fun x hx => hmem x (List.mem_cons_of_mem _ hx))]
      have happ := splitOnChar_append c l (c :: joinSep (c :: []) (u :: rest)) [] (u :: rest)
        (hmem l (List.mem_cons_self _ _)) hs
      rw [List.append_nil] at happ
      exact happ

theorem fieldsAux_nonspace :
    ∀ t : Str, t.all (fun c => ! isSpaceChar c) = true →
      ∀ (acc rest : Str), fieldsAux acc (t ++ rest) = fieldsAux (t.reverse ++ acc) rest := by
  intro t
  induction t with
  | nil =>
    intro _ acc rest
    rw [List.nil_append, List.reverse_nil, List.nil_append]
  | cons x t' ih =>
    intro hall acc rest
    have hx : isSpaceChar x = false := by
      have hm := List.all_eq_true.mp hall x (List.mem_cons_self _ _)
      cases hsp : isSpaceChar x
      · rfl
      · rw [hsp] at hm
        cases hm
    have hall' : t'.all (fun c => ! isSpaceChar c) = true := by
      rw [List.all_eq_true]
      intro y hy
      exact List.all_eq_true.mp hall y (List.mem_cons_of_mem _ hy)
    rw [List.cons_append, fieldsAux, if_neg (by rw [hx]; exact Bool.false_ne_true)]
    rw [ih hall' (x :: acc) rest, List.reverse_cons, List.append_assoc]
    rfl

theorem fields_joinSep :
    ∀ toks : List Str,
      (∀ t ∈ toks, ¬ t = [] ∧ t.all (fun c => ! isSpaceChar c) = true) →
      fields (joinSep ('\t' :: []) toks) = toks := by
  intro toks
  induction toks with
  | nil =>
    intro _
    rfl
  | cons t rest ih =>
    intro hval
    obtain ⟨hne, hns⟩ := hval t (List.mem_cons_self _ _)
    cases rest with
    | nil =>
      rw [joinSep_single, fields]
      have hstep := fieldsAux_nonspace t hns [] []
      rw [List.append_nil, List.append_nil] at hstep
      rw [hstep, fieldsAux,
        if_neg (fun hcc => hne (List.reverse_eq_nil_iff.mp hcc)),
        List.reverse_reverse]
    | cons u rest2 =>
      rw [joinSep_cons2, List.append_assoc, fields]
      have hstep := fieldsAux_nonspace t hns []
        (('\t' :: []) ++ joinSep ('\t' :: []) (u :: rest2))
      rw [List.append_nil] at hstep
      rw [hstep]
      show fieldsAux t.reverse ('\t' :: joinSep ('\t' :: []) (u :: rest2)) = t :: u :: rest2
      rw [fieldsAux, if_pos (show isSpaceChar '\t' = true from rfl),
        if_neg (fun hcc => hne (List.reverse_eq_nil_iff.mp hcc)),
        List.reverse_reverse]
      exact congrArg (List.cons t)
        (ih (fun x hx => hval x (List.mem_cons_of_mem _ hx)))

end GoStr

namespace Cgresolver

/-! ### Header remap lemmas -/

theorem findColsAux_subsys_hit (rest : List Str) (i : Nat) (hC nC eC : Option Nat) :
    findColsAux (colHeader CGCol.subsys :: rest) i none hC nC eC =
      findColsAux rest (i + 1) (some i) hC nC eC := rfl

theorem findColsAux_subsys_dup (rest : List Str) (i k : Nat) (hC nC eC : Option Nat) :
    findColsAux (colHeader CGCol.subsys :: rest) i (some k) hC nC eC =
      .error (CGSErr.dupCol "subsys_name".toList) := rfl

theorem findColsAux_hier_hit (rest : List Str) (i : Nat) (sC nC eC : Option Nat) :
    findColsAux (colHeader CGCol.hier :: rest) i sC none nC eC =
      findColsAux rest (i + 1) sC (some i) nC eC := by
  cases sC <;> rfl

theorem findColsAux_hier_dup (rest : List Str) (i k : Nat) (sC nC eC : Option Nat) :
    findColsAux (colHeader CGCol.hier :: rest) i sC (some k) nC eC =
      .error (CGSErr.dupCol "hierarchy".toList) := by
  cases sC <;> rfl

theorem findColsAux_ncg_hit (rest : List Str) (i : Nat) (sC hC eC : Option Nat) :
    findColsAux (colHeader CGCol.ncg :: rest) i sC hC none eC =
      findColsAux rest (i + 1) sC hC (some i) eC := by
  cases sC <;> cases hC <;> rfl

theorem findColsAux_ncg_dup (rest : List Str) (i k : Nat) (sC hC eC : Option Nat) :
    findColsAux (colHeader CGCol.ncg :: rest) i sC hC (some k) eC =
      .error (CGSErr.dupCol "num_cgroups".toList) := by
  cases sC <;> cases hC <;> rfl

theorem findColsAux_en_hit (rest : List Str) (i : Nat) (sC hC nC : Option Nat) :
    findColsAux (colHeader CGCol.en :: rest) i sC hC nC none =
      findColsAux rest (i + 1) sC hC nC (some i) := by
  cases sC <;> cases hC <;> cases nC <;> rfl

theorem findColsAux_en_dup (rest : List Str) (i k : Nat) (sC hC nC : Option Nat) :
    findColsAux (colHeader CGCol.en :: rest) i sC hC nC (some k) =
      .error (CGSErr.dupCol "enabled".toList) := by
  cases sC <;> cases hC <;> cases nC <;> rfl

theorem mem_tail_of_ne {a b : CGCol} {l : List CGCol} (h : a ∈ b :: l) (hne : ¬ a = b) :
    a ∈ l := by
  rcases List.mem_cons.mp h with h1 | h2
  · exact absurd h1 hne
  · exact h2

theorem colIdx_eq_none : ∀ (cols : List CGCol) (c : CGCol),
    colIdx cols c = none ↔ ¬ c ∈ cols := by
  intro cols c
  induction cols with
  | nil =>
    constructor
    · intro _
      exact List.not_mem_nil c
    · intro _
      rfl
  | cons x rest ih =>
    rw [colIdx]
    by_cases hx : x = c
    · rw [if_pos hx]
      constructor
      · intro h
        cases h
      · intro h
        exact absurd (hx ▸ List.mem_cons_self x rest) h
    · rw [if_neg hx]
      constructor
      · intro h hmem
        rcases List.mem_cons.mp hmem with h1 | h2
        · exact hx h1.symm
        · cases hcol : colIdx rest c with
          | none => exact (ih.mp hcol) h2
          | some j =>
            rw [hcol] at h
            cases h
      · intro h
        rw [ih.mpr (fun hm => h (List.mem_cons_of_mem _ hm))]
        rfl

theorem colIdx_mem_some (cols : List CGCol) (c : CGCol) (hmem : c ∈ cols) :
    ∃ k, colIdx cols c = some k := by
  cases hcol : colIdx cols c with
  | none => exact absurd hmem ((colIdx_eq_none cols c).mp hcol)
  | some k => exact ⟨k, rfl⟩

theorem colIdx_getD {β : Type} (f : CGCol → β) (d : β) :
    ∀ (cols : List CGCol) (c : CGCol) (k : Nat), colIdx cols c = some k →
      (cols.map f).getD k d = f c := by
  intro cols
  induction cols with
  | nil =>
    intro c k h
    cases h
  | cons x rest ih =>
    intro c k h
    rw [colIdx] at h
    by_cases hx : x = c
    · rw [if_pos hx] at h
      cases h
      rw [List.map_cons, List.getD_cons_zero, hx]
    · rw [if_neg hx] at h
      cases hcol : colIdx rest c with
      | none =>
        rw [hcol] at h
        cases h
      | some j =>
        rw [hcol] at h
        dsimp only [Option.map] at h
        cases h
        rw [List.map_cons, List.getD_cons_succ]
        exact ih c j hcol

theorem mergeIdx_nil (cur : Option Nat) (c : CGCol) (i : Nat) :
    mergeIdx cur [] c i = cur := by
  cases cur <;> rfl

theorem mergeIdx_some (k : Nat) (cols : List CGCol) (c : CGCol) (i : Nat) :
    mergeIdx (some k) cols c i = some k := rfl

theorem mergeIdx_self (cols : List CGCol) (c : CGCol) (i : Nat) :
    mergeIdx none (c :: cols) c i = some i := by
  show (colIdx (c :: cols) c).map (fun k => k + i) = some i
  rw [colIdx, if_pos rfl]
  dsimp only [Option.map]
  rw [Nat.zero_add]

theorem mergeIdx_skip (cur : Option Nat) (x : CGCol) (cols : List CGCol) (c : CGCol)
    (i : Nat) (hne : ¬ x = c) :
    mergeIdx cur cols c (i + 1) = mergeIdx cur (x :: cols) c i := by
  cases cur with
  | some k => rfl
  | none =>
    show (colIdx cols c).map (fun k => k + (i + 1)) =
      (colIdx (x :: cols) c).map (fun k => k + i)
    rw [colIdx, if_neg hne]
    cases hcol : colIdx cols c with
    | none => rfl
    | some j =>
      dsimp only [Option.map]
      exact congrArg some (by omega)

theorem mergeIdx_zero (cols : List CGCol) (c : CGCol) :
    mergeIdx none cols c 0 = colIdx cols c := by
  show (colIdx cols c).map (fun k => k + 0) = colIdx cols c
  cases hcol : colIdx cols c with
  | none => rfl
  | some j =>
    dsimp only [Option.map]
    rw [Nat.add_zero]

/-- Characterization of the header remap loop on a duplicate-free column
layout: it succeeds and returns the first index of each recognized
column. -/
theorem findColsAux_char :
    ∀ (cols : List CGCol) (i : Nat) (sC hC nC eC : Option Nat),
      cols.Nodup →
      (¬ sC = none → ¬ CGCol.subsys ∈ cols) →
      (¬ hC = none → ¬ CGCol.hier ∈ cols) →
      (¬ nC = none → ¬ CGCol.ncg ∈ cols) →
      (¬ eC = none → ¬ CGCol.en ∈ cols) →
      findColsAux (cols.map colHeader) i sC hC nC eC =
        .ok (mergeIdx sC cols CGCol.subsys i, mergeIdx hC cols CGCol.hier i,
          mergeIdx nC cols CGCol.ncg i, mergeIdx eC cols CGCol.en i) := by
  intro cols
  induction cols with
  | nil =>
    intro i sC hC nC eC _ _ _ _ _
    rw [List.map_nil, findColsAux, mergeIdx_nil, mergeIdx_nil, mergeIdx_nil, mergeIdx_nil]
  | cons c rest ih =>
    intro i sC hC nC eC hnd hsC hhC hnC heC
    have hndr : rest.Nodup := (List.nodup_cons.mp hnd).2
    have hcnr : ¬ c ∈ rest := (List.nodup_cons.mp hnd).1
    rw [List.map_cons]
    cases c with
    | subsys =>
      cases sC with
      | some k =>
        exact absurd (List.mem_cons_self _ _) (hsC (fun hcc => Option.noConfusion hcc))
      | none =>
        rw [findColsAux_subsys_hit,
          ih (i + 1) (some i) hC nC eC hndr (fun _ => hcnr)
            (fun hh hm => hhC hh (List.mem_cons_of_mem _ hm))
            (fun hh hm => hnC hh (List.mem_cons_of_mem _ hm))
            (fun hh hm => heC hh (List.mem_cons_of_mem _ hm)),
          mergeIdx_some, mergeIdx_self,
          mergeIdx_skip hC CGCol.subsys rest CGCol.hier i (fun hcc => CGCol.noConfusion hcc),
          mergeIdx_skip nC CGCol.subsys rest CGCol.ncg i (fun hcc => CGCol.noConfusion hcc),
          mergeIdx_skip eC CGCol.subsys rest CGCol.en i (fun hcc => CGCol.noConfusion hcc)]
    | hier =>
      cases hC with
      | some k =>
        exact absurd (List.mem_cons_self _ _) (hhC (fun hcc => Option.noConfusion hcc))
      | none =>
        rw [findColsAux_hier_hit,
          ih (i + 1) sC (some i) nC eC hndr
            (fun hh hm => hsC hh (List.mem_cons_of_mem _ hm))
            (fun _ => hcnr)
            (fun hh hm => hnC hh (List.mem_cons_of_mem _ hm))
            (fun hh hm => heC hh (List.mem_cons_of_mem _ hm)),
          mergeIdx_some, mergeIdx_self,
          mergeIdx_skip sC CGCol.hier rest CGCol.subsys i (fun hcc => CGCol.noConfusion hcc),
          mergeIdx_skip nC CGCol.hier rest CGCol.ncg i (fun hcc => CGCol.noConfusion hcc),
          mergeIdx_skip eC CGCol.hier rest CGCol.en i (fun hcc => CGCol.noConfusion hcc)]
    | ncg =>
      cases nC with
      | some k =>
        exact absurd (List.mem_cons_self _ _) (hnC (fun hcc => Option.noConfusion hcc))
      | none =>
        rw [findColsAux_ncg_hit,
          ih (i + 1) sC hC (some i) eC hndr
            (fun hh hm => hsC hh (List.mem_cons_of_mem _ hm))
            (fun hh hm => hhC hh (List.mem_cons_of_mem _ hm))
            (fun _ => hcnr)
            (fun hh hm => heC hh (List.mem_cons_of_mem _ hm)),
          mergeIdx_some, mergeIdx_self,
          mergeIdx_skip sC CGCol.ncg rest CGCol.subsys i (fun hcc => CGCol.noConfusion hcc),
          mergeIdx_skip hC CGCol.ncg rest CGCol.hier i (fun hcc => CGCol.noConfusion hcc),
          mergeIdx_skip eC CGCol.ncg rest CGCol.en i (fun hcc => CGCol.noConfusion hcc)]
    | en =>
      cases eC with
      | some k =>
        exact absurd (List.mem_cons_self _ _) (heC (fun hcc => Option.noConfusion hcc))
      | none =>
        rw [findColsAux_en_hit,
          ih (i + 1) sC hC nC (some i) hndr
            (fun hh hm => hsC hh (List.mem_cons_of_mem _ hm))
            (fun hh hm => hhC hh (List.mem_cons_of_mem _ hm))
            (fun hh hm => hnC hh (List.mem_cons_of_mem _ hm))
            (fun _ => hcnr),
          mergeIdx_some, mergeIdx_self,
          mergeIdx_skip sC CGCol.en rest CGCol.subsys i (fun hcc => CGCol.noConfusion hcc),
          mergeIdx_skip hC CGCol.en rest CGCol.hier i (fun hcc => CGCol.noConfusion hcc),
          mergeIdx_skip nC CGCol.en rest CGCol.ncg i (fun hcc => CGCol.noConfusion hcc)]

/-- The header remap loop fails with a duplicate-column error when a
recognized column occurs twice (or is already recorded). -/
theorem findColsAux_dup :
    ∀ (cols : List CGCol) (i : Nat) (sC hC nC eC : Option Nat),
      ((CGCol.subsys ∈ cols ∧ ¬ sC = none) ∨ (CGCol.hier ∈ cols ∧ ¬ hC = none) ∨
        (CGCol.ncg ∈ cols ∧ ¬ nC = none) ∨ (CGCol.en ∈ cols ∧ ¬ eC = none) ∨
        ¬ cols.Nodup) →
      ∃ nm, findColsAux (cols.map colHeader) i sC hC nC eC =
        .error (CGSErr.dupCol nm) := by
  intro cols
  induction cols with
  | nil =>
    intro i sC hC nC eC hd
    rcases hd with ⟨hm, _⟩ | ⟨hm, _⟩ | ⟨hm, _⟩ | ⟨hm, _⟩ | hnd
    · exact absurd hm (List.not_mem_nil _)
    · exact absurd hm (List.not_mem_nil _)
    · exact absurd hm (List.not_mem_nil _)
    · exact absurd hm (List.not_mem_nil _)
    · exact absurd List.nodup_nil hnd
  | cons c rest ih =>
    intro i sC hC nC eC hd
    rw [List.map_cons]
    cases c with
    | subsys =>
      cases sC with
      | some k => exact ⟨_, findColsAux_subsys_dup (rest.map colHeader) i k hC nC eC⟩
      | none =>
        rw [findColsAux_subsys_hit]
        apply ih (i + 1) (some i) hC nC eC
        rcases hd with ⟨_, hne⟩ | ⟨hm, hne⟩ | ⟨hm, hne⟩ | ⟨hm, hne⟩ | hnd
        · exact absurd rfl hne
        · exact Or.inr (Or.inl ⟨mem_tail_of_ne hm (fun hcc => CGCol.noConfusion hcc), hne⟩)
        · exact Or.inr (Or.inr (Or.inl
            ⟨mem_tail_of_ne hm (fun hcc => CGCol.noConfusion hcc), hne⟩))
        · exact Or.inr (Or.inr (Or.inr (Or.inl
            ⟨mem_tail_of_ne hm (fun hcc => CGCol.noConfusion hcc), hne⟩)))
        · by_cases hcr : CGCol.subsys ∈ rest
          · exact Or.inl ⟨hcr, fun hcc => Option.noConfusion hcc⟩
          · exact Or.inr (Or.inr (Or.inr (Or.inr
              (fun hndr => hnd (List.nodup_cons.mpr ⟨hcr, hndr⟩)))))
    | hier =>
      cases hC with
      | some k => exact ⟨_, findColsAux_hier_dup (rest.map colHeader) i k sC nC eC⟩
      | none =>
        rw [findColsAux_hier_hit]
        apply ih (i + 1) sC (some i) nC eC
        rcases hd with ⟨hm, hne⟩ | ⟨_, hne⟩ | ⟨hm, hne⟩ | ⟨hm, hne⟩ | hnd
        · exact Or.inl ⟨mem_tail_of_ne hm (fun hcc => CGCol.noConfusion hcc), hne⟩
        · exact absurd rfl hne
        · exact Or.inr (Or.inr (Or.inl
            ⟨mem_tail_of_ne hm (fun hcc => CGCol.noConfusion hcc), hne⟩))
        · exact Or.inr (Or.inr (Or.inr (Or.inl
            ⟨mem_tail_of_ne hm (fun hcc => CGCol.noConfusion hcc), hne⟩)))
        · by_cases hcr : CGCol.hier ∈ rest
          · exact Or.inr (Or.inl ⟨hcr, fun hcc => Option.noConfusion hcc⟩)
          · exact Or.inr (Or.inr (Or.inr (Or.inr
              (fun hndr => hnd (List.nodup_cons.mpr ⟨hcr, hndr⟩)))))
    | ncg =>
      cases nC with
      | some k => exact ⟨_, findColsAux_ncg_dup (rest.map colHeader) i k sC hC eC⟩
      | none =>
        rw [findColsAux_ncg_hit]
        apply ih (i + 1) sC hC (some i) eC
        rcases hd with ⟨hm, hne⟩ | ⟨hm, hne⟩ | ⟨_, hne⟩ | ⟨hm, hne⟩ | hnd
        · exact Or.inl ⟨mem_tail_of_ne hm (fun hcc => CGCol.noConfusion hcc), hne⟩
        · exact Or.inr (Or.inl ⟨mem_tail_of_ne hm (fun hcc => CGCol.noConfusion hcc), hne⟩)
        · exact absurd rfl hne
        · exact Or.inr (Or.inr (Or.inr (Or.inl
            ⟨mem_tail_of_ne hm (fun hcc => CGCol.noConfusion hcc), hne⟩)))
        · by_cases hcr : CGCol.ncg ∈ rest
          · exact Or.inr (Or.inr (Or.inl ⟨hcr, fun hcc => Option.noConfusion hcc⟩))
          · exact Or.inr (Or.inr (Or.inr (Or.inr
              (fun hndr => hnd (List.nodup_cons.mpr ⟨hcr, hndr⟩)))))
    | en =>
      cases eC with
      | some k => exact ⟨_, findColsAux_en_dup (rest.map colHeader) i k sC hC nC⟩
      | none =>
        rw [findColsAux_en_hit]
        apply ih (i + 1) sC hC nC (some i)
        rcases hd with ⟨hm, hne⟩ | ⟨hm, hne⟩ | ⟨hm, hne⟩ | ⟨_, hne⟩ | hnd
        · exact Or.inl ⟨mem_tail_of_ne hm (fun hcc => CGCol.noConfusion hcc), hne⟩
        · exact Or.inr (Or.inl ⟨mem_tail_of_ne hm (fun hcc => CGCol.noConfusion hcc), hne⟩)
        · exact Or.inr (Or.inr (Or.inl
            ⟨mem_tail_of_ne hm (fun hcc => CGCol.noConfusion hcc), hne⟩))
        · exact absurd rfl hne
        · by_cases hcr : CGCol.en ∈ rest
          · exact Or.inr (Or.inr (Or.inr (Or.inl ⟨hcr, fun hcc => Option.noConfusion hcc⟩)))
          · exact Or.inr (Or.inr (Or.inr (Or.inr
              (fun hndr => hnd (List.nodup_cons.mpr ⟨hcr, hndr⟩)))))

end Cgresolver

namespace Cgresolver

/-! ### Serialized-image lemmas -/

theorem validTok_parts {t : Str} (h : validTok t = true) :
    ¬ t = [] ∧ t.all (fun ch => ! GoStr.isSpaceChar ch) = true := by
  rw [validTok, Bool.and_eq_true] at h
  exact ⟨of_decide_eq_true h.1, h.2⟩

theorem rowValid_tok {r : CGRowToks} (h : rowValid r = true) (c : CGCol) :
    ¬ rowTok r c = [] ∧ (rowTok r c).all (fun ch => ! GoStr.isSpaceChar ch) = true := by
  rw [rowValid, Bool.and_eq_true, Bool.and_eq_true, Bool.and_eq_true] at h
  obtain ⟨⟨⟨h1, h2⟩, h3⟩, h4⟩ := h
  cases c with
  | subsys => exact validTok_parts h1
  | hier => exact validTok_parts h2
  | ncg => exact validTok_parts h3
  | en => exact validTok_parts h4

theorem colHeader_parts (c : CGCol) :
    ¬ colHeader c = [] ∧ (colHeader c).all (fun ch => ! GoStr.isSpaceChar ch) = true := by
  cases c <;> exact ⟨by decide, by decide⟩

theorem newline_not_mem_of_nonspace {t : Str}
    (h : t.all (fun ch => ! GoStr.isSpaceChar ch) = true) : '\n' ∉ t := by
  intro hin
  exact absurd (List.all_eq_true.mp h '\n' hin) (by decide)

theorem dropWhile_false_of_all (p : Char → Bool) :
    ∀ t : Str, (∀ ch ∈ t, p ch = false) → t.dropWhile p = t := by
  intro t hall
  cases t with
  | nil => rfl
  | cons a t' =>
    rw [List.dropWhile_cons,
      if_neg (by rw [hall a (List.mem_cons_self _ _)]; exact Bool.false_ne_true)]

theorem dropWhile_append_false (p : Char → Bool) :
    ∀ (t l : Str), (∀ ch ∈ t, p ch = false) → ¬ t = [] →
      (t ++ l).dropWhile p = t ++ l := by
  intro t l hall hne
  cases t with
  | nil => exact absurd rfl hne
  | cons a t' =>
    rw [List.cons_append, List.dropWhile_cons,
      if_neg (by rw [hall a (List.mem_cons_self _ _)]; exact Bool.false_ne_true)]

theorem hash_not_in_colHeader (c : CGCol) :
    ∀ ch ∈ colHeader c, decide (ch = '#') = false := by
  cases c <;> decide

theorem fields_rowLine (cols : List CGCol) (r : CGRowToks) (h : rowValid r = true) :
    GoStr.fields (rowLineCG cols r) = cols.map (rowTok r) := by
  rw [rowLineCG]
  exact GoStr.fields_joinSep _ (fun t ht => by
    obtain ⟨c, _, heq⟩ := List.mem_map.mp ht
    rw [← heq]
    exact rowValid_tok h c)

theorem trimLeft_headerLine (c0 : CGCol) (rest : List CGCol) :
    GoStr.trimLeftChar '#' (headerLineCG (c0 :: rest)) =
      GoStr.joinSep ('\t' :: []) ((c0 :: rest).map colHeader) := by
  rw [headerLineCG, GoStr.trimLeftChar, List.dropWhile_cons, if_pos (by decide)]
  rw [List.map_cons]
  cases rest with
  | nil =>
    rw [List.map_nil, GoStr.joinSep_single]
    exact dropWhile_false_of_all _ _ (hash_not_in_colHeader c0)
  | cons c1 rest2 =>
    rw [List.map_cons, GoStr.joinSep_cons2, List.append_assoc]
    exact dropWhile_append_false _ _ _ (hash_not_in_colHeader c0) (colHeader_parts c0).1

theorem headers_of_serialize (c0 : CGCol) (rest : List CGCol) :
    GoStr.fields (GoStr.trimLeftChar '#' (headerLineCG (c0 :: rest))) =
      (c0 :: rest).map colHeader := by
  rw [trimLeft_headerLine]
  exact GoStr.fields_joinSep _ (fun t ht => by
    obtain ⟨c, _, heq⟩ := List.mem_map.mp ht
    rw [← heq]
    exact colHeader_parts c)

theorem rowLineCG_ne_nil (c0 : CGCol) (rest : List CGCol) (r : CGRowToks)
    (hv : rowValid r = true) :
    ¬ rowLineCG (c0 :: rest) r = [] := by
  rw [rowLineCG, List.map_cons]
  exact GoStr.joinSep_ne_nil _ _ _ (rowValid_tok hv c0).1

theorem serialize_lines (cols : List CGCol) (rows : List CGRowToks)
    (hrows : ∀ r ∈ rows, rowValid r = true) :
    GoStr.splitOnChar '\n' (serializeCG cols rows) =
      headerLineCG cols :: rows.map (rowLineCG cols) := by
  rw [serializeCG]
  apply GoStr.splitOnChar_joinSep
  · exact List.cons_ne_nil _ _
  · intro l hl
    rcases List.mem_cons.mp hl with h1 | h2
    · rw [h1, headerLineCG]
      intro hin
      rcases List.mem_cons.mp hin with hh | hh
      · exact absurd hh (by decide)
      · exact GoStr.joinSep_not_mem '\n' _ (by decide) _
          (fun t ht => by
            obtain ⟨c, _, heq⟩ := List.mem_map.mp ht
            rw [← heq]
            exact newline_not_mem_of_nonspace (colHeader_parts c).2) hh
    · obtain ⟨r, hr, heq⟩ := List.mem_map.mp h2
      rw [← heq, rowLineCG]
      exact GoStr.joinSep_not_mem '\n' _ (by decide) _
        (fun t ht => by
          obtain ⟨c, _, heq2⟩ := List.mem_map.mp ht
          rw [← heq2]
          exact newline_not_mem_of_nonspace (rowValid_tok (hrows r hr) c).2)

end Cgresolver

namespace Cgresolver

/-! ### Row extraction and parse-entry lemmas -/

theorem extractRowMapped_row (cols : List CGCol) (r : CGRowToks) (sc hc : Nat)
    (hvV nvV : Int) (evV : Bool)
    (hval : rowValid r = true)
    (hsc : colIdx cols CGCol.subsys = some sc)
    (hhc : colIdx cols CGCol.hier = some hc)
    (hhv : GoStr.goAtoi r.hierTok = some hvV)
    (hnv : GoStr.goAtoi r.ncgTok = some nvV)
    (hev : GoStr.goParseBool r.enTok = some evV) :
    extractRowMapped (cols.map colHeader).length sc hc
        (colIdx cols CGCol.ncg) (colIdx cols CGCol.en)
        (GoStr.fields (rowLineCG cols r)) =
      .ok ⟨r.subsysTok, hvV,
        (match colIdx cols CGCol.ncg with | none => 0 | some _ => nvV),
        (match colIdx cols CGCol.en with | none => true | some _ => evV)⟩ := by
  rw [fields_rowLine cols r hval, extractRowMapped.eq_def]
  have hlen : (cols.map (rowTok r)).length = (cols.map colHeader).length := by
    rw [List.length_map, List.length_map]
  rw [if_neg (fun hcc => hcc hlen)]
  rw [colIdx_getD (rowTok r) [] cols CGCol.hier hc hhc,
    show rowTok r CGCol.hier = r.hierTok from rfl, hhv]
  dsimp only
  cases hnc : colIdx cols CGCol.ncg with
  | none =>
    dsimp only
    cases hec : colIdx cols CGCol.en with
    | none =>
      dsimp only
      rw [colIdx_getD (rowTok r) [] cols CGCol.subsys sc hsc]
      rfl
    | some ec =>
      dsimp only
      rw [colIdx_getD (rowTok r) [] cols CGCol.en ec hec,
        show rowTok r CGCol.en = r.enTok from rfl, hev]
      dsimp only
      rw [colIdx_getD (rowTok r) [] cols CGCol.subsys sc hsc]
      rfl
  | some nc =>
    dsimp only
    rw [colIdx_getD (rowTok r) [] cols CGCol.ncg nc hnc,
      show rowTok r CGCol.ncg = r.ncgTok from rfl, hnv]
    dsimp only
    cases hec : colIdx cols CGCol.en with
    | none =>
      dsimp only
      rw [colIdx_getD (rowTok r) [] cols CGCol.subsys sc hsc]
      rfl
    | some ec =>
      dsimp only
      rw [colIdx_getD (rowTok r) [] cols CGCol.en ec hec,
        show rowTok r CGCol.en = r.enTok from rfl, hev]
      dsimp only
      rw [colIdx_getD (rowTok r) [] cols CGCol.subsys sc hsc]
      rfl

theorem extractRowFast_row (r : CGRowToks) (hvV nvV : Int) (evV : Bool)
    (hval : rowValid r = true)
    (hhv : GoStr.goAtoi r.hierTok = some hvV)
    (hnv : GoStr.goAtoi r.ncgTok = some nvV)
    (hev : GoStr.goParseBool r.enTok = some evV) :
    extractRowFast (GoStr.fields
        (rowLineCG [CGCol.subsys, CGCol.hier, CGCol.ncg, CGCol.en] r)) =
      .ok ⟨r.subsysTok, hvV, nvV, evV⟩ := by
  rw [fields_rowLine _ r hval]
  rw [List.map_cons, List.map_cons, List.map_cons, List.map_cons, List.map_nil]
  rw [extractRowFast]
  rw [if_neg (fun hcc => hcc rfl)]
  rw [show ([rowTok r CGCol.subsys, rowTok r CGCol.hier, rowTok r CGCol.ncg,
      rowTok r CGCol.en].getD 1 ([] : Str)) = r.hierTok from rfl, hhv]
  dsimp only
  rw [show ([rowTok r CGCol.subsys, rowTok r CGCol.hier, rowTok r CGCol.ncg,
      rowTok r CGCol.en].getD 2 ([] : Str)) = r.ncgTok from rfl, hnv]
  dsimp only
  rw [show ([rowTok r CGCol.subsys, rowTok r CGCol.hier, rowTok r CGCol.ncg,
      rowTok r CGCol.en].getD 3 ([] : Str)) = r.enTok from rfl, hev]
  rfl

theorem rowLine_ne_nil (cols : List CGCol) (hne : ¬ cols = []) (r : CGRowToks)
    (hv : rowValid r = true) :
    ¬ rowLineCG cols r = [] := by
  cases cols with
  | nil => exact absurd rfl hne
  | cons c0 rest => exact rowLineCG_ne_nil c0 rest r hv

theorem cgRowsLoop_map (extract : List Str → Except CGSErr CGroupSubsystem)
    (f : CGRowToks → CGroupSubsystem) (cols : List CGCol) (hne : ¬ cols = []) :
    ∀ rows : List CGRowToks,
      (∀ r ∈ rows, rowValid r = true) →
      (∀ r ∈ rows, extract (GoStr.fields (rowLineCG cols r)) = .ok (f r)) →
      cgRowsLoop extract (rows.map (rowLineCG cols)) = .ok (rows.map f) := by
  intro rows
  induction rows with
  | nil =>
    intro _ _
    rfl
  | cons r rows' ih =>
    intro hval hex
    rw [List.map_cons, cgRowsLoop,
      if_neg (rowLine_ne_nil cols hne r (hval r (List.mem_cons_self _ _))),
      hex r (List.mem_cons_self _ _),
      ih (fun x hx => hval x (List.mem_cons_of_mem _ hx))
        (fun x hx => hex x (List.mem_cons_of_mem _ hx))]
    rfl

theorem cols_of_header_eq (cols : List CGCol) (h : cols.map colHeader = expCGCols) :
    cols = [CGCol.subsys, CGCol.hier, CGCol.ncg, CGCol.en] := by
  have hinj : Function.Injective colHeader := by
    intro a b hab
    cases a <;> cases b <;> first | rfl | exact absurd hab (by decide)
  apply List.map_injective_iff.mpr hinj
  rw [h]
  rfl

theorem parseCG_serialize_slow (cols : List CGCol) (rows : List CGRowToks)
    (c0 : CGCol) (cRest : List CGCol) (hsh : cols = c0 :: cRest)
    (hrows : ∀ r ∈ rows, rowValid r = true)
    (hlen2 : 2 ≤ cols.length)
    (hnotfast : ¬ cols.map colHeader = expCGCols) :
    parseCGSubsystems (serializeCG cols rows) =
      (match findColsAux (cols.map colHeader) 0 none none none none with
       | .error e => .error e
       | .ok (sC, hC, nC, eC) =>
         match sC, hC with
         | some sc, some hc =>
           cgRowsLoop (extractRowMapped (cols.map colHeader).length sc hc nC eC)
             (rows.map (rowLineCG cols))
         | _, _ => .error .missingCritical) := by
  rw [parseCGSubsystems]
  rw [serialize_lines cols rows hrows, List.headD_cons]
  rw [show (headerLineCG cols :: rows.map (rowLineCG cols)).drop 1 =
    rows.map (rowLineCG cols) from rfl]
  rw [hsh, headers_of_serialize c0 cRest, ← hsh]
  rw [if_neg (by rw [List.length_map]; omega)]
  rw [if_neg hnotfast]

theorem parseCG_serialize_fast (rows : List CGRowToks)
    (hrows : ∀ r ∈ rows, rowValid r = true) :
    parseCGSubsystems
        (serializeCG [CGCol.subsys, CGCol.hier, CGCol.ncg, CGCol.en] rows) =
      cgRowsLoop extractRowFast
        (rows.map (rowLineCG [CGCol.subsys, CGCol.hier, CGCol.ncg, CGCol.en])) := by
  rw [parseCGSubsystems]
  rw [serialize_lines _ rows hrows, List.headD_cons]
  rw [show (headerLineCG [CGCol.subsys, CGCol.hier, CGCol.ncg, CGCol.en] ::
      rows.map (rowLineCG [CGCol.subsys, CGCol.hier, CGCol.ncg, CGCol.en])).drop 1 =
    rows.map (rowLineCG [CGCol.subsys, CGCol.hier, CGCol.ncg, CGCol.en]) from rfl]
  rw [headers_of_serialize CGCol.subsys [CGCol.hier, CGCol.ncg, CGCol.en]]
  rw [if_neg (by decide), if_pos (by decide)]

end Cgresolver

/-! ## Claim theorems -/

/-- C8: for every byte `b` in `[0, 256)`, encoding `b` as a
three-octal-digit zero-padded backslash escape and then applying the
octal-escape decoder yields exactly the one-byte string containing `b`;
and every input string containing no backslash is returned unchanged by
the decoder. -/
theorem c8_octal_escape_roundtrip :
    (∀ b : Nat, b < 256 →
      Cgresolver.unOctalEscape (Cgresolver.octEncode b) = some (Char.ofNat b :: [])) ∧
    (∀ s : Str, '\\' ∉ s → Cgresolver.unOctalEscape s = some s) := by
  constructor
  · intro b hb
    have h := Cgresolver.unOctalEscape_octEncode b hb []
    rw [List.append_nil] at h
    rw [h]
    rfl
  · exact Cgresolver.unOctalEscape_no_backslash

/-- Witness for C8 at the byte 255 and the backslash-free string "abc". -/
theorem c8_octal_escape_roundtrip_witness :
    Cgresolver.unOctalEscape (Cgresolver.octEncode 255) = some (Char.ofNat 255 :: []) ∧
    Cgresolver.unOctalEscape ("abc".toList) = some ("abc".toList) :=
  ⟨c8_octal_escape_roundtrip.1 255 (by decide),
   c8_octal_escape_roundtrip.2 ("abc".toList) (by decide)⟩

/-- C4 counterexample: the claim's match rule ("v1 mounts match when the
controller sets are equal") rejects a cgroup2 mount for a record with
hierarchy ID 5 and an empty controller set, but the code's resolver
accepts it through the unguarded controller-set-equality clause. -/
theorem c4_match_rule_counterexample :
    Cgresolver.cgPath ⟨5, [], [], ("/x".toList)⟩
        (⟨("/m".toList), ("/".toList), [], true⟩ :: []) =
      some ⟨("/m/x".toList), ("/m".toList), Cgresolver.CGMode.v2⟩ ∧
    Cgresolver.resolveFirstMatch Cgresolver.claimMatch ⟨5, [], [], ("/x".toList)⟩
        (⟨("/m".toList), ("/".toList), [], true⟩ :: []) = none := by
  constructor
  · rfl
  · rfl

/-- C4 (amended): for every mount list and every proc-cgroup record, the
resolver returns the CGroupPath built from the first mount in file order
that matches the record, where a mount matches when it is a cgroup2 mount
and the record has hierarchy 0, or when the mount's controller set equals
the record's controller set (regardless of the mount's v2 flag); mounts
whose root begins with `/..` are skipped, and a mount for which the
record's path relative to the mount root fails or begins with `../` is
skipped in favor of a later matching mount. -/
theorem c4_first_match_resolution_amended (c : Cgresolver.CGProcHierarchy)
    (ms : List Cgresolver.Mount) :
    Cgresolver.cgPath c ms = Cgresolver.resolveFirstMatch Cgresolver.codeMatch c ms :=
  Cgresolver.cgPath_eq_resolveCodeMatch c ms

/-- Witness for C4 (amended) at the counterexample input. -/
theorem c4_first_match_resolution_amended_witness :
    Cgresolver.cgPath ⟨5, [], [], ("/x".toList)⟩
        (⟨("/m".toList), ("/".toList), [], true⟩ :: []) =
      Cgresolver.resolveFirstMatch Cgresolver.codeMatch ⟨5, [], [], ("/x".toList)⟩
        (⟨("/m".toList), ("/".toList), [], true⟩ :: []) :=
  c4_first_match_resolution_amended ⟨5, [], [], ("/x".toList)⟩
    (⟨("/m".toList), ("/".toList), [], true⟩ :: [])

/-- C10: the controller-set-equality clause is applied without checking
the mount's v2 flag or the record's hierarchy id: a proc-cgroup record
with hierarchy 0 and empty controller set matches any cgroup-v1 mount
whose parsed subsystem list is empty, and the resolver then returns a
CGroupPath whose mode is v1; moreover a v1 mountinfo line parses to an
empty subsystem list exactly when every per-superblock option is `ro`,
`rw`, or empty. -/
theorem c10_v1_empty_subsystems_match :
    (∀ (c : Cgresolver.CGProcHierarchy) (mp : Cgresolver.Mount)
        (rest : List Cgresolver.Mount) (rel : Str),
      c.HierarchyID = 0 → c.Subsystems = [] →
      mp.CGroupV2 = false → mp.Subsystems = [] →
      GoStr.hasPrefix ("/..".toList) mp.Root = false →
      Cgresolver.relGo mp.Root c.Path = some rel →
      GoStr.hasPrefix ("../".toList) rel = false →
      Cgresolver.cgPath c (mp :: rest) =
        some ⟨Cgresolver.joinGo mp.Mountpoint rel, mp.Mountpoint, Cgresolver.CGMode.v1⟩) ∧
    (∀ (sec0 opts : Str) (m : Cgresolver.Mount),
      Cgresolver.parseMILine.parseMIFields sec0 opts false = .ok (some m) →
      (m.Subsystems = [] ↔
        ∀ o ∈ GoStr.splitOnChar ',' opts, o = "ro".toList ∨ o = "rw".toList ∨ o = [])) := by
  constructor
  · intro c mp rest rel h0 hsub hv2 hms hroot hrel hup
    rw [Cgresolver.cgPath, hroot]
    simp only [Bool.false_eq_true, if_false]
    have hcond : (mp.CGroupV2 = true ∧ c.HierarchyID = 0) ∨ mp.Subsystems = c.Subsystems :=
      Or.inr (by rw [hms, hsub])
    rw [if_pos hcond, hrel]
    dsimp only
    rw [hup]
    simp only [Bool.false_eq_true, if_false]
    rw [hv2]
    rfl
  · intro sec0 opts m hparse
    rw [Cgresolver.parseMILine.parseMIFields] at hparse
    match hsec : GoStr.splitOnChar ' ' sec0 with
    | [] => rw [hsec] at hparse; simp at hparse
    | [f0] => rw [hsec] at hparse; simp at hparse
    | [f0, f1] => rw [hsec] at hparse; simp at hparse
    | [f0, f1, f2] => rw [hsec] at hparse; simp at hparse
    | [f0, f1, f2, f3] => rw [hsec] at hparse; simp at hparse
    | f0 :: f1 :: f2 :: root :: mnt :: t =>
      rw [hsec] at hparse
      dsimp only at hparse
      cases hmp : Cgresolver.unOctalEscape mnt with
      | none => rw [hmp] at hparse; simp at hparse
      | some mpv =>
        rw [hmp] at hparse
        dsimp only at hparse
        cases hrt : Cgresolver.unOctalEscape root with
        | none => rw [hrt] at hparse; simp at hparse
        | some rootv =>
          rw [hrt] at hparse
          dsimp only at hparse
          simp only [Except.ok.injEq, Option.some.injEq] at hparse
          rw [← hparse]
          dsimp only
          simp only [Bool.false_eq_true, if_false, List.filter_eq_nil_iff,
            decide_eq_true_eq, not_not]

/-- Witness for C10 with a concrete hierarchy-0 record, a v1 mount with
empty subsystem list, and a v1 mountinfo options field `rw`. -/
theorem c10_v1_empty_subsystems_match_witness :
    Cgresolver.cgPath ⟨0, [], [], ("/x".toList)⟩
        (⟨("/m".toList), ("/".toList), [], false⟩ :: []) =
      some ⟨Cgresolver.joinGo ("/m".toList) ("x".toList), ("/m".toList),
        Cgresolver.CGMode.v1⟩ ∧
    (((⟨("/m".toList), ("/".toList), [], false⟩ : Cgresolver.Mount).Subsystems = []) ↔
      ∀ o ∈ GoStr.splitOnChar ',' ("rw".toList),
        o = "ro".toList ∨ o = "rw".toList ∨ o = []) :=
  ⟨c10_v1_empty_subsystems_match.1 ⟨0, [], [], ("/x".toList)⟩
      ⟨("/m".toList), ("/".toList), [], false⟩ [] ("x".toList)
      rfl rfl rfl rfl (by decide) (by decide) (by decide),
   c10_v1_empty_subsystems_match.2 ("a b c / /m".toList) ("rw".toList)
      ⟨("/m".toList), ("/".toList), [], false⟩ rfl⟩

/-- C5: iterating the Parent operation from any well-formed CGroupPath
(mount_path is a prefix of abs_path in the path sense, both with trailing
separators stripped) terminates in a finite number of steps with
advanced=false — `parentRun` with fuel `|abs_path| + 1` returns — and at
that point abs_path equals mount_path. -/
theorem c5_parent_iteration_terminates (c : Cgresolver.CGroupPath)
    (hm : ¬ c.MountPath.getLast? = some '/')
    (ha : ¬ c.AbsPath.getLast? = some '/')
    (hpre : c.AbsPath = c.MountPath ∨
      GoStr.hasPrefix (c.MountPath ++ ('/' :: [])) c.AbsPath = true) :
    Cgresolver.parentRun (c.AbsPath.length + 1) c =
      some ⟨c.MountPath, c.MountPath, c.Mode⟩ := by
  obtain ⟨abs, mnt, mode⟩ := c
  dsimp only at hm ha hpre ⊢
  have htrim : GoStr.trimSuffixChar '/' abs = abs := Cgresolver.trimSuffixChar_self ha
  apply Cgresolver.parentRun_reaches mode mnt hm (abs.length + 1) abs (Nat.lt_succ_self _)
  cases hpre with
  | inl h => exact Or.inl (by rw [htrim, h])
  | inr h =>
    rw [GoStr.hasPrefix] at h
    obtain ⟨t, ht⟩ := List.isPrefixOf_iff_prefix.mp h
    right
    exact ⟨t, by rw [htrim, ← ht, List.append_assoc, List.singleton_append]⟩

/-- Witness for C5 on a concrete two-level cgroup path. -/
theorem c5_parent_iteration_terminates_witness :
    Cgresolver.parentRun (("/sys/fs/cgroup/memory/kubepods/pod1".toList).length + 1)
      ⟨("/sys/fs/cgroup/memory/kubepods/pod1".toList), ("/sys/fs/cgroup/memory".toList),
        Cgresolver.CGMode.v1⟩ =
      some ⟨("/sys/fs/cgroup/memory".toList), ("/sys/fs/cgroup/memory".toList),
        Cgresolver.CGMode.v1⟩ :=
  c5_parent_iteration_terminates
    ⟨("/sys/fs/cgroup/memory/kubepods/pod1".toList), ("/sys/fs/cgroup/memory".toList),
      Cgresolver.CGMode.v1⟩
    (by decide) (by decide) (Or.inr (by decide))

/-- C7: on a successfully parsed mountinfo, the reader emits one Mount
for exactly those input lines whose filesystem type is cgroup or cgroup2,
in file order; all other lines are silently skipped; the tokens ro, rw
and empty tokens never appear in any emitted Mount's controller sequence;
and v2 mounts always carry an empty controller sequence. -/
theorem c7_mountinfo_emits_cgroup_lines (s : Str) (out : List Cgresolver.Mount)
    (h : Cgresolver.getCGroupMountsFromMountinfo s = .ok out) :
    out = (GoStr.splitOnChar '\n' s).filterMap Cgresolver.miEmits ∧
    (∀ l ∈ GoStr.splitOnChar '\n' s,
      (Cgresolver.miEmits l).isSome = Cgresolver.isCGFsLine l) ∧
    (∀ m ∈ out, ¬ "ro".toList ∈ m.Subsystems ∧ ¬ "rw".toList ∈ m.Subsystems ∧
      ¬ ([] : Str) ∈ m.Subsystems ∧ (m.CGroupV2 = true → m.Subsystems = [])) := by
  rw [Cgresolver.getCGroupMountsFromMountinfo] at h
  obtain ⟨hnoerr, hout⟩ := Cgresolver.collectMounts_ok _ _ h
  refine ⟨hout, ?_, ?_⟩
  · intro l hl
    cases Cgresolver.parseMILine_classify l with
    | inl he => exact absurd he (hnoerr l hl)
    | inr hc =>
      cases hc with
      | inl hc =>
        obtain ⟨hok, hcg⟩ := hc
        have : Cgresolver.miEmits l = none := by rw [Cgresolver.miEmits, hok]
        rw [this, hcg]
        rfl
      | inr hc =>
        obtain ⟨m, hok, hcg⟩ := hc
        have : Cgresolver.miEmits l = some m := by rw [Cgresolver.miEmits, hok]
        rw [this, hcg]
        rfl
  · intro m hm
    rw [hout] at hm
    obtain ⟨l, _, hl2⟩ := List.mem_filterMap.mp hm
    exact Cgresolver.parseMILine_emit_props l m (Cgresolver.miEmits_some hl2)

/-- Witness for C7 on a concrete three-line mountinfo (one v1 cgroup
line, one non-cgroup line, one cgroup2 line). -/
theorem c7_mountinfo_emits_cgroup_lines_witness :
    (⟨("/sys/fs/cgroup/memory".toList), ("/".toList), [("memory".toList)], false⟩ ::
     ⟨("/sys/fs/cgroup/unified".toList), ("/".toList), [], true⟩ ::
     [] : List Cgresolver.Mount) =
      (GoStr.splitOnChar '\n'
        (("25 20 0:22 / /sys/fs/cgroup/memory rw,nosuid - cgroup cgroup rw,memory\n" ++
          "26 20 0:23 / /proc rw - proc proc rw\n" ++
          "27 20 0:24 / /sys/fs/cgroup/unified rw - cgroup2 cgroup2 rw").toList)).filterMap
        Cgresolver.miEmits ∧
    (∀ l ∈ GoStr.splitOnChar '\n'
        (("25 20 0:22 / /sys/fs/cgroup/memory rw,nosuid - cgroup cgroup rw,memory\n" ++
          "26 20 0:23 / /proc rw - proc proc rw\n" ++
          "27 20 0:24 / /sys/fs/cgroup/unified rw - cgroup2 cgroup2 rw").toList),
      (Cgresolver.miEmits l).isSome = Cgresolver.isCGFsLine l) ∧
    (∀ m ∈ (⟨("/sys/fs/cgroup/memory".toList), ("/".toList), [("memory".toList)], false⟩ ::
        ⟨("/sys/fs/cgroup/unified".toList), ("/".toList), [], true⟩ ::
        [] : List Cgresolver.Mount),
      ¬ "ro".toList ∈ m.Subsystems ∧ ¬ "rw".toList ∈ m.Subsystems ∧
        ¬ ([] : Str) ∈ m.Subsystems ∧ (m.CGroupV2 = true → m.Subsystems = [])) :=
  c7_mountinfo_emits_cgroup_lines
    (("25 20 0:22 / /sys/fs/cgroup/memory rw,nosuid - cgroup cgroup rw,memory\n" ++
      "26 20 0:23 / /proc rw - proc proc rw\n" ++
      "27 20 0:24 / /sys/fs/cgroup/unified rw - cgroup2 cgroup2 rw").toList)
    (⟨("/sys/fs/cgroup/memory".toList), ("/".toList), [("memory".toList)], false⟩ ::
     ⟨("/sys/fs/cgroup/unified".toList), ("/".toList), [], true⟩ :: [])
    (by rfl)


/-- C2: whenever at least one level of the walk reads successfully and
some successfully-read level reports a positive limit, GetCgroupCPULimit
and GetCgroupMemoryLimit return the minimum positive limit observed
along the walk.  The CPU hypothesis (successful reads are -1 or
nonnegative) holds of getCGroupCPULimitSingle, which pairs -1 with an
error; the memory hypothesis (reads at most MaxInt64) holds of
readIntValFile, which parses an int64 and caps "max" at MaxInt64. -/
theorem c2_limit_aggregators_min_positive :
    (∀ (E : Type) (reads : List (Except E Rat)) (m : Rat),
      (∀ v ∈ Cgrouplimits.okVals reads, v = -1 ∨ 0 ≤ v) →
      Cgrouplimits.listMin? ((Cgrouplimits.okVals reads).filter (fun v => decide (0 < v))) =
        some m →
      Cgrouplimits.GetCgroupCPULimit reads = .ok (some m)) ∧
    (∀ (E : Type) (reads : List (Except E Int)) (m : Int),
      (∀ v ∈ Cgrouplimits.okVals reads, v ≤ Cgrouplimits.maxInt64) →
      Cgrouplimits.listMin? ((Cgrouplimits.okVals reads).filter (fun v => decide (0 < v))) =
        some m →
      Cgrouplimits.GetCgroupMemoryLimit reads = .ok m) := by
  constructor
  · intro E reads m hnn hm
    have hmem := Cgrouplimits.listMin?_mem hm
    have hok : ∃ v, Except.ok v ∈ reads :=
      ⟨m, Cgrouplimits.mem_okVals (List.mem_of_mem_filter hmem)⟩
    have hfc : (Cgrouplimits.okVals reads).filter Cgrouplimits.cpuLimNonSentinel =
        (Cgrouplimits.okVals reads).filter (fun v => decide (0 < v)) :=
      List.filter_congr (fun v hv => Cgrouplimits.cpuLimNonSentinel_eq_pos (hnn v hv))
    rw [Cgrouplimits.GetCgroupCPULimit,
      Cgrouplimits.aggLoop_someOk Cgrouplimits.cpuLimitStep reads none none hok]
    have hfold : List.foldl Cgrouplimits.cpuLimitStep none (Cgrouplimits.okVals reads) =
        Cgrouplimits.mergeMin none
          (Cgrouplimits.listMin?
            ((Cgrouplimits.okVals reads).filter Cgrouplimits.cpuLimNonSentinel)) :=
      Cgrouplimits.foldl_minStepOpt Cgrouplimits.cpuLimNonSentinel
        (Cgrouplimits.okVals reads) none
    rw [hfold, hfc, hm]
    rfl
  · intro E reads m hle hm
    have hmem := Cgrouplimits.listMin?_mem hm
    have hmOk : m ∈ Cgrouplimits.okVals reads := List.mem_of_mem_filter hmem
    have hok : ∃ v, Except.ok v ∈ reads := ⟨m, Cgrouplimits.mem_okVals hmOk⟩
    rw [Cgrouplimits.GetCgroupMemoryLimit,
      Cgrouplimits.aggLoop_someOk Cgrouplimits.memLimitStep reads
        Cgrouplimits.maxInt64 none hok]
    have hfold := Cgrouplimits.foldl_minStepSent (fun v => decide (0 < v))
      (Cgrouplimits.okVals reads) Cgrouplimits.maxInt64
    rw [hm] at hfold
    dsimp only at hfold
    rw [min_eq_right (hle m hmOk)] at hfold
    exact congrArg Except.ok hfold

theorem c2_limit_aggregators_min_positive_witness :
    Cgrouplimits.GetCgroupCPULimit
        ([Except.error (), Except.ok 2, Except.ok 1, Except.ok 0] :
          List (Except Unit Rat)) = .ok (some 1) ∧
    Cgrouplimits.GetCgroupMemoryLimit
        ([Except.error (), Except.ok 500, Except.ok 300] :
          List (Except Unit Int)) = .ok 300 := by
  constructor
  · exact c2_limit_aggregators_min_positive.1 Unit
      [Except.error (), Except.ok 2, Except.ok 1, Except.ok 0] 1 (by decide) (by decide)
  · exact c2_limit_aggregators_min_positive.2 Unit
      [Except.error (), Except.ok 500, Except.ok 300] 300 (by decide) (by decide)

/-- C3: each of the four aggregated reads errors exactly when every
level of the walk fails, and the error it then reports is the one from
the deepest (first-visited) level; conversely one success suffices for a
non-error result. -/
theorem c3_error_iff_total_failure :
    (∀ (E : Type) (reads : List (Except E Rat)), ¬ reads = [] →
      ((∃ eo, Cgrouplimits.GetCgroupCPULimit reads = .error eo) ↔
        (∀ r ∈ reads, ∃ e, r = .error e)) ∧
      (∀ e0 rest, reads = .error e0 :: rest → (∀ r ∈ reads, ∃ e, r = .error e) →
        Cgrouplimits.GetCgroupCPULimit reads = .error (some e0))) ∧
    (∀ (E : Type) (reads : List (Except E Int)), ¬ reads = [] →
      ((∃ eo, Cgrouplimits.GetCgroupMemoryLimit reads = .error eo) ↔
        (∀ r ∈ reads, ∃ e, r = .error e)) ∧
      (∀ e0 rest, reads = .error e0 :: rest → (∀ r ∈ reads, ∃ e, r = .error e) →
        Cgrouplimits.GetCgroupMemoryLimit reads = .error (some e0))) ∧
    (∀ (E : Type) (reads : List (Except E (Cgrouplimits.CPUStats × Rat))), ¬ reads = [] →
      ((∃ eo, Cgrouplimits.GetCgroupCPUStats reads = .error eo) ↔
        (∀ r ∈ reads, ∃ e, r = .error e)) ∧
      (∀ e0 rest, reads = .error e0 :: rest → (∀ r ∈ reads, ∃ e, r = .error e) →
        Cgrouplimits.GetCgroupCPUStats reads = .error (some e0))) ∧
    (∀ (E : Type) (reads : List (Except E (Cgrouplimits.MemoryStats × Int))), ¬ reads = [] →
      ((∃ eo, Cgrouplimits.GetCgroupMemoryStats reads = .error eo) ↔
        (∀ r ∈ reads, ∃ e, r = .error e)) ∧
      (∀ e0 rest, reads = .error e0 :: rest → (∀ r ∈ reads, ∃ e, r = .error e) →
        Cgrouplimits.GetCgroupMemoryStats reads = .error (some e0))) := by
  refine ⟨?_, ?_, ?_, ?_⟩
  · intro E
    exact Cgrouplimits.c3_genericWrap Cgrouplimits.cpuLimitStep none id
      Cgrouplimits.GetCgroupCPULimit
      (fun reads => by
        rw [Cgrouplimits.GetCgroupCPULimit]
        cases Cgrouplimits.aggLoop Cgrouplimits.cpuLimitStep reads none true none <;> rfl)
  · intro E
    exact Cgrouplimits.c3_genericWrap Cgrouplimits.memLimitStep Cgrouplimits.maxInt64 id
      Cgrouplimits.GetCgroupMemoryLimit
      (fun reads => by
        rw [Cgrouplimits.GetCgroupMemoryLimit]
        cases Cgrouplimits.aggLoop Cgrouplimits.memLimitStep reads
          Cgrouplimits.maxInt64 true none <;> rfl)
  · intro E
    exact Cgrouplimits.c3_genericWrap Cgrouplimits.cpuStatsStep
      ⟨none, Cgrouplimits.zeroCPUStats, false, Cgrouplimits.zeroCPUStats⟩
      (fun st => match st.minLimit with
        | none => st.leafStats
        | some _ => st.minStats)
      Cgrouplimits.GetCgroupCPUStats
      (fun reads => by
        rw [Cgrouplimits.GetCgroupCPUStats]
        cases Cgrouplimits.aggLoop Cgrouplimits.cpuStatsStep reads
            ⟨none, Cgrouplimits.zeroCPUStats, false, Cgrouplimits.zeroCPUStats⟩ true none with
        | error e => rfl
        | ok st =>
          obtain ⟨mL, mS, pop, lS⟩ := st
          cases mL <;> rfl)
  · intro E
    exact Cgrouplimits.c3_genericWrap Cgrouplimits.memStatsStep
      ⟨Cgrouplimits.maxUint64, Cgrouplimits.zeroMemoryStats⟩
      (fun st => st.minStats)
      Cgrouplimits.GetCgroupMemoryStats
      (fun reads => by
        rw [Cgrouplimits.GetCgroupMemoryStats]
        cases Cgrouplimits.aggLoop Cgrouplimits.memStatsStep reads
          ⟨Cgrouplimits.maxUint64, Cgrouplimits.zeroMemoryStats⟩ true none <;> rfl)

theorem c3_error_iff_total_failure_witness :
    Cgrouplimits.GetCgroupCPULimit
      ([Except.error 7, Except.error 8] : List (Except Nat Rat)) = .error (some 7) := by
  have hall : ∀ r ∈ ([Except.error 7, Except.error 8] : List (Except Nat Rat)),
      ∃ e, r = Except.error e := by
    intro r hr
    rcases List.mem_cons.mp hr with h | h
    · exact ⟨7, h⟩
    · rcases List.mem_cons.mp h with h2 | h2
      · exact ⟨8, h2⟩
      · exact absurd h2 (List.not_mem_nil _)
  exact (c3_error_iff_total_failure.1 Nat [Except.error 7, Except.error 8]
    (List.cons_ne_nil _ _)).2 7 [Except.error 8] rfl hall


/-- C1 counterexample: a walk whose only successfully-read level reports
no memory limit (-1).  The claim says the leaf's stats are returned, but
GetCgroupMemoryStats keeps no leaf stats and returns the zero-value
MemoryStats instead. -/
theorem c1_stats_counterexample :
    Cgrouplimits.GetCgroupMemoryStats
        ([Except.ok (⟨5, 6, 7, 8⟩, -1)] :
          List (Except Unit (Cgrouplimits.MemoryStats × Int))) =
      .ok Cgrouplimits.zeroMemoryStats ∧
    ¬ Cgrouplimits.zeroMemoryStats = (⟨5, 6, 7, 8⟩ : Cgrouplimits.MemoryStats) := by
  exact ⟨rfl, by decide⟩

/-- C1 (amended): with at least one successful level, GetCgroupCPUStats
returns the stats of the deepest level attaining the minimum positive
limit when one exists, and the leaf (deepest successful) level's stats
otherwise; GetCgroupMemoryStats returns the stats of the deepest level
attaining the minimum uint64-cast non-(-1) limit when one exists, and
the zero-value MemoryStats — not the leaf's stats — otherwise.  The CPU
well-formedness hypothesis (-1 only as the error sentinel) holds of
getCGroupCPULimitSingle; the memory reads are int64 values. -/
theorem c1_stats_aggregators_amended :
    (∀ (E : Type) (reads : List (Except E (Cgrouplimits.CPUStats × Rat))) (m : Rat)
        (prf : Cgrouplimits.CPUStats × Rat),
      (∀ pr ∈ Cgrouplimits.okVals reads, pr.2 = -1 ∨ 0 ≤ pr.2) →
      Cgrouplimits.listMin?
          (((Cgrouplimits.okVals reads).filter (fun pr => decide (0 < pr.2))).map
            Prod.snd) = some m →
      ((Cgrouplimits.okVals reads).filter (fun pr => decide (0 < pr.2))).find?
          (fun pr => decide (pr.2 = m)) = some prf →
      Cgrouplimits.GetCgroupCPUStats reads = .ok prf.1) ∧
    (∀ (E : Type) (reads : List (Except E (Cgrouplimits.CPUStats × Rat)))
        (pr0 : Cgrouplimits.CPUStats × Rat) (tl : List (Cgrouplimits.CPUStats × Rat)),
      (∀ pr ∈ Cgrouplimits.okVals reads, pr.2 = -1 ∨ 0 ≤ pr.2) →
      Cgrouplimits.okVals reads = pr0 :: tl →
      Cgrouplimits.listMin?
          (((Cgrouplimits.okVals reads).filter (fun pr => decide (0 < pr.2))).map
            Prod.snd) = none →
      Cgrouplimits.GetCgroupCPUStats reads = .ok pr0.1) ∧
    (∀ (E : Type) (reads : List (Except E (Cgrouplimits.MemoryStats × Int))) (m : Nat)
        (prf : Cgrouplimits.MemoryStats × Int),
      (∀ pr ∈ Cgrouplimits.okVals reads, -(2 ^ 63) ≤ pr.2 ∧ pr.2 < 2 ^ 63) →
      Cgrouplimits.listMin?
          (((Cgrouplimits.okVals reads).filter (fun pr => decide (¬ pr.2 = -1))).map
            (fun pr => Cgrouplimits.u64 pr.2)) = some m →
      ((Cgrouplimits.okVals reads).filter (fun pr => decide (¬ pr.2 = -1))).find?
          (fun pr => decide (Cgrouplimits.u64 pr.2 = m)) = some prf →
      Cgrouplimits.GetCgroupMemoryStats reads = .ok prf.1) ∧
    (∀ (E : Type) (reads : List (Except E (Cgrouplimits.MemoryStats × Int))),
      ¬ Cgrouplimits.okVals reads = [] →
      (∀ pr ∈ Cgrouplimits.okVals reads, -(2 ^ 63) ≤ pr.2 ∧ pr.2 < 2 ^ 63) →
      (Cgrouplimits.okVals reads).filter (fun pr => decide (¬ pr.2 = -1)) = [] →
      Cgrouplimits.GetCgroupMemoryStats reads = .ok Cgrouplimits.zeroMemoryStats) := by
  refine ⟨?_, ?_, ?_, ?_⟩
  · intro E reads m prf hwf hm hfind
    have hok : ∃ v, Except.ok v ∈ reads :=
      ⟨prf, Cgrouplimits.mem_okVals
        (List.mem_of_mem_filter (List.mem_of_find?_eq_some hfind))⟩
    have hfc : (Cgrouplimits.okVals reads).filter
          (fun pr => Cgrouplimits.cpuLimNonSentinel pr.2) =
        (Cgrouplimits.okVals reads).filter (fun pr => decide (0 < pr.2)) :=
      List.filter_congr (fun pr hpr => Cgrouplimits.cpuLimNonSentinel_eq_pos (hwf pr hpr))
    have hm' : Cgrouplimits.listMin?
        (((Cgrouplimits.okVals reads).filter
          (fun pr => Cgrouplimits.cpuLimNonSentinel pr.2)).map Prod.snd) = some m := by
      rw [hfc]
      exact hm
    have hfind' : ((Cgrouplimits.okVals reads).filter
        (fun pr => Cgrouplimits.cpuLimNonSentinel pr.2)).find?
          (fun pr => decide (pr.2 = m)) = some prf := by
      rw [hfc]
      exact hfind
    have hsel := (Cgrouplimits.foldSel_char Cgrouplimits.cpuLimNonSentinel
      (Cgrouplimits.okVals reads) none Cgrouplimits.zeroCPUStats).2.2 m prf hm' rfl hfind'
    rw [Cgrouplimits.GetCgroupCPUStats,
      Cgrouplimits.aggLoop_someOk Cgrouplimits.cpuStatsStep reads
        ⟨none, Cgrouplimits.zeroCPUStats, false, Cgrouplimits.zeroCPUStats⟩ none hok]
    dsimp only
    rw [Cgrouplimits.cpuStats_foldl_decomp (Cgrouplimits.okVals reads) none
      Cgrouplimits.zeroCPUStats false Cgrouplimits.zeroCPUStats]
    dsimp only
    rw [hsel]
  · intro E reads pr0 tl hwf hshape hnone
    have hok : ∃ v, Except.ok v ∈ reads :=
      ⟨pr0, Cgrouplimits.mem_okVals (by rw [hshape]; exact List.mem_cons_self _ _)⟩
    have hfc : (Cgrouplimits.okVals reads).filter
          (fun pr => Cgrouplimits.cpuLimNonSentinel pr.2) =
        (Cgrouplimits.okVals reads).filter (fun pr => decide (0 < pr.2)) :=
      List.filter_congr (fun pr hpr => Cgrouplimits.cpuLimNonSentinel_eq_pos (hwf pr hpr))
    have hnone' : Cgrouplimits.listMin?
        (((Cgrouplimits.okVals reads).filter
          (fun pr => Cgrouplimits.cpuLimNonSentinel pr.2)).map Prod.snd) = none := by
      rw [hfc]
      exact hnone
    have hsel := (Cgrouplimits.foldSel_char Cgrouplimits.cpuLimNonSentinel
      (Cgrouplimits.okVals reads) none Cgrouplimits.zeroCPUStats).1 hnone'
    rw [Cgrouplimits.GetCgroupCPUStats,
      Cgrouplimits.aggLoop_someOk Cgrouplimits.cpuStatsStep reads
        ⟨none, Cgrouplimits.zeroCPUStats, false, Cgrouplimits.zeroCPUStats⟩ none hok]
    dsimp only
    rw [Cgrouplimits.cpuStats_foldl_decomp (Cgrouplimits.okVals reads) none
      Cgrouplimits.zeroCPUStats false Cgrouplimits.zeroCPUStats]
    dsimp only
    rw [hsel]
    dsimp only
    rw [if_neg Bool.false_ne_true, hshape]
    rfl
  · intro E reads m prf hrng hm hfind
    have hok : ∃ v, Except.ok v ∈ reads :=
      ⟨prf, Cgrouplimits.mem_okVals
        (List.mem_of_mem_filter (List.mem_of_find?_eq_some hfind))⟩
    have hfm : ((Cgrouplimits.okVals reads).map
          (fun pr => (pr.1, Cgrouplimits.u64 pr.2))).filter
          (fun pr => decide (¬ pr.2 = Cgrouplimits.maxUint64)) =
        ((Cgrouplimits.okVals reads).filter (fun pr => decide (¬ pr.2 = -1))).map
          (fun pr => (pr.1, Cgrouplimits.u64 pr.2)) := by
      rw [List.filter_map]
      congr 1
      apply List.filter_congr
      intro pr hpr
      show decide (¬ Cgrouplimits.u64 pr.2 = Cgrouplimits.maxUint64) = decide (¬ pr.2 = -1)
      exact decide_eq_decide.mpr (not_congr (Cgrouplimits.u64_eq_max_iff (hrng pr hpr)))
    have hm' : Cgrouplimits.listMin?
        ((((Cgrouplimits.okVals reads).map
          (fun pr => (pr.1, Cgrouplimits.u64 pr.2))).filter
          (fun pr => decide (¬ pr.2 = Cgrouplimits.maxUint64))).map Prod.snd) = some m := by
      rw [hfm, List.map_map]
      exact hm
    have hfind' : (((Cgrouplimits.okVals reads).map
        (fun pr => (pr.1, Cgrouplimits.u64 pr.2))).filter
          (fun pr => decide (¬ pr.2 = Cgrouplimits.maxUint64))).find?
          (fun pr => decide (pr.2 = m)) =
        some (prf.1, Cgrouplimits.u64 prf.2) := by
      rw [hfm, List.find?_map]
      have hcomp : ((fun (pr : Cgrouplimits.MemoryStats × Nat) => decide (pr.2 = m)) ∘
          (fun (pr : Cgrouplimits.MemoryStats × Int) => (pr.1, Cgrouplimits.u64 pr.2))) =
          (fun pr => decide (Cgrouplimits.u64 pr.2 = m)) := rfl
      rw [hcomp, hfind]
      rfl
    have hsel := (Cgrouplimits.foldSel_char
      (fun v => decide (¬ v = Cgrouplimits.maxUint64))
      ((Cgrouplimits.okVals reads).map (fun pr => (pr.1, Cgrouplimits.u64 pr.2)))
      none Cgrouplimits.zeroMemoryStats).2.2 m (prf.1, Cgrouplimits.u64 prf.2) hm' rfl hfind'
    rw [Cgrouplimits.GetCgroupMemoryStats,
      Cgrouplimits.aggLoop_someOk Cgrouplimits.memStatsStep reads
        ⟨Cgrouplimits.maxUint64, Cgrouplimits.zeroMemoryStats⟩ none hok]
    dsimp only
    rw [Cgrouplimits.memStats_foldl_bridge (Cgrouplimits.okVals reads) hrng
      Cgrouplimits.maxUint64 Cgrouplimits.zeroMemoryStats none (Or.inl ⟨rfl, rfl⟩)]
    dsimp only
    rw [hsel]
  · intro E reads hne hrng hflt
    have hok := Cgrouplimits.okVals_ne_nil_exists hne
    have hfm : ((Cgrouplimits.okVals reads).map
          (fun pr => (pr.1, Cgrouplimits.u64 pr.2))).filter
          (fun pr => decide (¬ pr.2 = Cgrouplimits.maxUint64)) =
        ((Cgrouplimits.okVals reads).filter (fun pr => decide (¬ pr.2 = -1))).map
          (fun pr => (pr.1, Cgrouplimits.u64 pr.2)) := by
      rw [List.filter_map]
      congr 1
      apply List.filter_congr
      intro pr hpr
      show decide (¬ Cgrouplimits.u64 pr.2 = Cgrouplimits.maxUint64) = decide (¬ pr.2 = -1)
      exact decide_eq_decide.mpr (not_congr (Cgrouplimits.u64_eq_max_iff (hrng pr hpr)))
    have hm0 : Cgrouplimits.listMin?
        ((((Cgrouplimits.okVals reads).map
          (fun pr => (pr.1, Cgrouplimits.u64 pr.2))).filter
          (fun pr => decide (¬ pr.2 = Cgrouplimits.maxUint64))).map Prod.snd) = none := by
      rw [hfm, hflt]
      rfl
    have hsel := (Cgrouplimits.foldSel_char
      (fun v => decide (¬ v = Cgrouplimits.maxUint64))
      ((Cgrouplimits.okVals reads).map (fun pr => (pr.1, Cgrouplimits.u64 pr.2)))
      none Cgrouplimits.zeroMemoryStats).1 hm0
    rw [Cgrouplimits.GetCgroupMemoryStats,
      Cgrouplimits.aggLoop_someOk Cgrouplimits.memStatsStep reads
        ⟨Cgrouplimits.maxUint64, Cgrouplimits.zeroMemoryStats⟩ none hok]
    dsimp only
    rw [Cgrouplimits.memStats_foldl_bridge (Cgrouplimits.okVals reads) hrng
      Cgrouplimits.maxUint64 Cgrouplimits.zeroMemoryStats none (Or.inl ⟨rfl, rfl⟩)]
    dsimp only
    rw [hsel]

theorem c1_stats_aggregators_amended_witness :
    Cgrouplimits.GetCgroupCPUStats
        ([Except.error (), Except.ok (⟨4, ⟨1, 1⟩, 0⟩, 4), Except.ok (⟨2, ⟨2, 2⟩, 0⟩, 2),
          Except.ok (⟨-1, ⟨3, 3⟩, 0⟩, -1)] :
          List (Except Unit (Cgrouplimits.CPUStats × Rat))) =
      .ok ⟨2, ⟨2, 2⟩, 0⟩ ∧
    Cgrouplimits.GetCgroupMemoryStats
        ([Except.error (), Except.ok (⟨1, 1, 1, 1⟩, 100), Except.ok (⟨2, 2, 2, 2⟩, 50),
          Except.ok (⟨3, 3, 3, 3⟩, -1)] :
          List (Except Unit (Cgrouplimits.MemoryStats × Int))) =
      .ok ⟨2, 2, 2, 2⟩ := by
  constructor
  · exact c1_stats_aggregators_amended.1 Unit
      [Except.error (), Except.ok (⟨4, ⟨1, 1⟩, 0⟩, 4), Except.ok (⟨2, ⟨2, 2⟩, 0⟩, 2),
        Except.ok (⟨-1, ⟨3, 3⟩, 0⟩, -1)] 2 (⟨2, ⟨2, 2⟩, 0⟩, 2)
      (by decide) (by decide) (by decide)
  · exact c1_stats_aggregators_amended.2.2.1 Unit
      [Except.error (), Except.ok (⟨1, 1, 1, 1⟩, 100), Except.ok (⟨2, 2, 2, 2⟩, 50),
        Except.ok (⟨3, 3, 3, 3⟩, -1)] 50 (⟨2, 2, 2, 2⟩, 50)
      (by decide) (by decide) (by decide)


/-- Successful `strconv.ParseInt(_, 10, 64)` results are in int64
range. -/
theorem goParseInt64_range {s : Str} {v : Int} (h : GoStr.goParseInt64 s = some v) :
    -(2 ^ 63) ≤ v ∧ v < 2 ^ 63 := by
  rw [GoStr.goParseInt64] at h
  cases hato : GoStr.goAtoi s with
  | none =>
    rw [hato] at h
    cases h
  | some w =>
    rw [hato] at h
    dsimp only at h
    by_cases hr : -(2 ^ 63) ≤ w ∧ w < 2 ^ 63
    · rw [if_pos hr] at h
      cases h
      exact hr
    · rw [if_neg hr] at h
      cases h

/-- C9: a line whose key is declared as an 8-bit integer field and whose
value parses to an int64 that does not fit 8 bits (such as 1024) makes
Parse fail with the overflow error, and setIntField rejects the value
without producing an updated record, so nothing truncated is stored. -/
theorem c9_int8_overflow_no_write :
    ∀ (p : Pparser.KVParser) (out : Pparser.KVOut) (content line : Str)
      (rest : List Str) (key valPart : Str) (v : Int),
      Pparser.kvLines content = line :: rest →
      GoStr.splitOnce p.splitKey line = some (key, valPart) →
      Pparser.assocFind p.idx key = some (Pparser.FieldKind.int 8) →
      GoStr.goParseInt64
          (Pparser.trimStringWithMultiplier (GoStr.trimSpace valPart)).1 = some v →
      (Pparser.trimStringWithMultiplier (GoStr.trimSpace valPart)).2 = 1 →
      Pparser.intFits 8 v = false →
      Pparser.setIntField p out key v = .error (Pparser.KVErr.overflow key v) ∧
      Pparser.Parse p content out = .error (Pparser.KVErr.overflow key v) := by
  intro p out content line rest key valPart v hlines hsplit hidx hparse hmul hov
  have hset : Pparser.setIntField p out key v =
      .error (Pparser.KVErr.overflow key v) := by
    rw [Pparser.setIntField, hidx]
    dsimp only
    rw [if_neg (by rw [hov]; exact Bool.false_ne_true)]
  have hrange := goParseInt64_range hparse
  have hwrap : Pparser.wrapInt64
      (v * (Pparser.trimStringWithMultiplier (GoStr.trimSpace valPart)).2) = v := by
    rw [hmul, mul_one, Pparser.wrapInt64]
    omega
  refine ⟨hset, ?_⟩
  have hfk : Pparser.fieldKind p key = some (Pparser.FieldKind.int 8) := by
    rw [Pparser.fieldKind, hidx]
  have hproc : Pparser.kvProcessLine p out line =
      .error (Pparser.KVErr.overflow key v) := by
    rw [Pparser.kvProcessLine, hsplit]
    dsimp only
    rw [hfk]
    dsimp only
    rw [hparse]
    dsimp only
    rw [hwrap, hset]
  rw [Pparser.Parse, hlines, Pparser.kvParse, hproc]

theorem c9_int8_overflow_no_write_witness :
    Pparser.setIntField ⟨[("VmPeak".toList, Pparser.FieldKind.int 8)], ":".toList, none⟩
        ⟨[], []⟩ "VmPeak".toList 1024 =
      .error (Pparser.KVErr.overflow "VmPeak".toList 1024) ∧
    Pparser.Parse ⟨[("VmPeak".toList, Pparser.FieldKind.int 8)], ":".toList, none⟩
        "VmPeak: 1024\n".toList ⟨[], []⟩ =
      .error (Pparser.KVErr.overflow "VmPeak".toList 1024) := by
  exact c9_int8_overflow_no_write
    ⟨[("VmPeak".toList, Pparser.FieldKind.int 8)], ":".toList, none⟩ ⟨[], []⟩
    "VmPeak: 1024\n".toList "VmPeak: 1024\n".toList [] "VmPeak".toList
    " 1024\n".toList 1024 rfl rfl rfl rfl rfl rfl

theorem mem_of_colIdx_some {cols : List Cgresolver.CGCol} {c : Cgresolver.CGCol} {k : Nat}
    (h : Cgresolver.colIdx cols c = some k) : c ∈ cols := by
  by_contra hmem
  rw [(Cgresolver.colIdx_eq_none cols c).mpr hmem] at h
  cases h

/-- C6: for any duplicate-free layout of recognized /proc/cgroups
columns containing subsys_name and hierarchy, parsing a serialized image
yields the same Subsystem values in every column order, with NumCGroups
defaulting to 0 and Enabled to true when their columns are absent; a
layout missing subsys_name or hierarchy is an error, and a layout
duplicating a recognized column is an error. -/
theorem c6_proc_cgroups_column_layouts :
    (∀ (cols : List Cgresolver.CGCol) (rows : List Cgresolver.CGRowToks)
        (hvF nvF : Cgresolver.CGRowToks → Int) (evF : Cgresolver.CGRowToks → Bool),
      cols.Nodup → Cgresolver.CGCol.subsys ∈ cols → Cgresolver.CGCol.hier ∈ cols →
      (∀ r ∈ rows, Cgresolver.rowValid r = true) →
      (∀ r ∈ rows, GoStr.goAtoi r.hierTok = some (hvF r)) →
      (∀ r ∈ rows, GoStr.goAtoi r.ncgTok = some (nvF r)) →
      (∀ r ∈ rows, GoStr.goParseBool r.enTok = some (evF r)) →
      Cgresolver.parseCGSubsystems (Cgresolver.serializeCG cols rows) =
        .ok (rows.map (fun r =>
          (⟨r.subsysTok, hvF r,
            if Cgresolver.CGCol.ncg ∈ cols then nvF r else 0,
            if Cgresolver.CGCol.en ∈ cols then evF r else true⟩ :
            Cgresolver.CGroupSubsystem)))) ∧
    (∀ (cols : List Cgresolver.CGCol) (rows : List Cgresolver.CGRowToks),
      cols.Nodup → 2 ≤ cols.length →
      (∀ r ∈ rows, Cgresolver.rowValid r = true) →
      (¬ Cgresolver.CGCol.subsys ∈ cols ∨ ¬ Cgresolver.CGCol.hier ∈ cols) →
      Cgresolver.parseCGSubsystems (Cgresolver.serializeCG cols rows) =
        .error Cgresolver.CGSErr.missingCritical) ∧
    (∀ (cols : List Cgresolver.CGCol) (rows : List Cgresolver.CGRowToks),
      2 ≤ cols.length → ¬ cols.Nodup →
      (∀ r ∈ rows, Cgresolver.rowValid r = true) →
      ∃ nm, Cgresolver.parseCGSubsystems (Cgresolver.serializeCG cols rows) =
        .error (Cgresolver.CGSErr.dupCol nm)) := by
  refine ⟨?_, ?_, ?_⟩
  · intro cols rows hvF nvF evF hnd hsub hhier hrows hhv hnv hev
    by_cases hfast : cols.map Cgresolver.colHeader = Cgresolver.expCGCols
    · have hcan := Cgresolver.cols_of_header_eq cols hfast
      subst hcan
      rw [Cgresolver.parseCG_serialize_fast rows hrows]
      rw [Cgresolver.cgRowsLoop_map Cgresolver.extractRowFast
        (fun r => ⟨r.subsysTok, hvF r, nvF r, evF r⟩)
        [Cgresolver.CGCol.subsys, Cgresolver.CGCol.hier, Cgresolver.CGCol.ncg,
          Cgresolver.CGCol.en]
        (List.cons_ne_nil _ _) rows hrows
        (fun r hr => Cgresolver.extractRowFast_row r (hvF r) (nvF r) (evF r)
          (hrows r hr) (hhv r hr) (hnv r hr) (hev r hr))]
      exact congrArg Except.ok (List.map_congr_left (fun r _ => by
        rw [if_pos (by decide), if_pos (by decide)]))
    · have hshape : ∃ c0 cRest, cols = c0 :: cRest := by
        cases cols with
        | nil => exact absurd hsub (List.not_mem_nil _)
        | cons a b => exact ⟨a, b, rfl⟩
      obtain ⟨c0, cRest, hsh⟩ := hshape
      have hlen2 : 2 ≤ cols.length := by
        cases cols with
        | nil => exact absurd hsub (List.not_mem_nil _)
        | cons a tl =>
          cases tl with
          | nil =>
            rcases List.mem_cons.mp hsub with h1 | h1
            · rcases List.mem_cons.mp hhier with h2 | h2
              · exact absurd (h1.trans h2.symm) (fun hcc => Cgresolver.CGCol.noConfusion hcc)
              · exact absurd h2 (List.not_mem_nil _)
            · exact absurd h1 (List.not_mem_nil _)
          | cons b tl2 =>
            simp only [List.length_cons]
            omega
      rw [Cgresolver.parseCG_serialize_slow cols rows c0 cRest hsh hrows hlen2 hfast]
      rw [Cgresolver.findColsAux_char cols 0 none none none none hnd
        (fun hcc => absurd rfl hcc) (fun hcc => absurd rfl hcc)
        (fun hcc => absurd rfl hcc) (fun hcc => absurd rfl hcc)]
      rw [Cgresolver.mergeIdx_zero, Cgresolver.mergeIdx_zero, Cgresolver.mergeIdx_zero,
        Cgresolver.mergeIdx_zero]
      obtain ⟨sc, hsc⟩ := Cgresolver.colIdx_mem_some cols Cgresolver.CGCol.subsys hsub
      obtain ⟨hcI, hhcI⟩ := Cgresolver.colIdx_mem_some cols Cgresolver.CGCol.hier hhier
      rw [hsc, hhcI]
      dsimp only
      rw [Cgresolver.cgRowsLoop_map
        (Cgresolver.extractRowMapped (cols.map Cgresolver.colHeader).length sc hcI
          (Cgresolver.colIdx cols Cgresolver.CGCol.ncg)
          (Cgresolver.colIdx cols Cgresolver.CGCol.en))
        (fun r => ⟨r.subsysTok, hvF r,
          (match Cgresolver.colIdx cols Cgresolver.CGCol.ncg with
            | none => 0
            | some _ => nvF r),
          (match Cgresolver.colIdx cols Cgresolver.CGCol.en with
            | none => true
            | some _ => evF r)⟩)
        cols (by rw [hsh]; exact List.cons_ne_nil _ _) rows hrows
        (fun r hr => Cgresolver.extractRowMapped_row cols r sc hcI (hvF r) (nvF r) (evF r)
          (hrows r hr) hsc hhcI (hhv r hr) (hnv r hr) (hev r hr))]
      refine congrArg Except.ok (List.map_congr_left (fun r _ => ?_))
      cases hncI : Cgresolver.colIdx cols Cgresolver.CGCol.ncg with
      | none =>
        rw [if_neg ((Cgresolver.colIdx_eq_none cols Cgresolver.CGCol.ncg).mp hncI)]
        cases hecI : Cgresolver.colIdx cols Cgresolver.CGCol.en with
        | none =>
          rw [if_neg ((Cgresolver.colIdx_eq_none cols Cgresolver.CGCol.en).mp hecI)]
        | some e1 =>
          rw [if_pos (mem_of_colIdx_some hecI)]
      | some n1 =>
        rw [if_pos (mem_of_colIdx_some hncI)]
        cases hecI : Cgresolver.colIdx cols Cgresolver.CGCol.en with
        | none =>
          rw [if_neg ((Cgresolver.colIdx_eq_none cols Cgresolver.CGCol.en).mp hecI)]
        | some e1 =>
          rw [if_pos (mem_of_colIdx_some hecI)]
  · intro cols rows hnd hlen2 hrows hmiss
    have hshape : ∃ c0 cRest, cols = c0 :: cRest := by
      cases cols with
      | nil => exact absurd hlen2 (by decide)
      | cons a b => exact ⟨a, b, rfl⟩
    obtain ⟨c0, cRest, hsh⟩ := hshape
    have hnotfast : ¬ cols.map Cgresolver.colHeader = Cgresolver.expCGCols := by
      intro hcc
      have hcan := Cgresolver.cols_of_header_eq cols hcc
      rcases hmiss with hm | hm
      · exact hm (by rw [hcan]; decide)
      · exact hm (by rw [hcan]; decide)
    rw [Cgresolver.parseCG_serialize_slow cols rows c0 cRest hsh hrows hlen2 hnotfast]
    rw [Cgresolver.findColsAux_char cols 0 none none none none hnd
      (fun hcc => absurd rfl hcc) (fun hcc => absurd rfl hcc)
      (fun hcc => absurd rfl hcc) (fun hcc => absurd rfl hcc)]
    rw [Cgresolver.mergeIdx_zero, Cgresolver.mergeIdx_zero, Cgresolver.mergeIdx_zero,
      Cgresolver.mergeIdx_zero]
    rcases hmiss with hm | hm
    · rw [(Cgresolver.colIdx_eq_none cols Cgresolver.CGCol.subsys).mpr hm]
    · rw [(Cgresolver.colIdx_eq_none cols Cgresolver.CGCol.hier).mpr hm]
      cases Cgresolver.colIdx cols Cgresolver.CGCol.subsys <;> rfl
  · intro cols rows hlen2 hnd hrows
    have hshape : ∃ c0 cRest, cols = c0 :: cRest := by
      cases cols with
      | nil => exact absurd hlen2 (by decide)
      | cons a b => exact ⟨a, b, rfl⟩
    obtain ⟨c0, cRest, hsh⟩ := hshape
    have hnotfast : ¬ cols.map Cgresolver.colHeader = Cgresolver.expCGCols := by
      intro hcc
      exact hnd (by rw [Cgresolver.cols_of_header_eq cols hcc]; decide)
    obtain ⟨nm, hfc⟩ := Cgresolver.findColsAux_dup cols 0 none none none none
      (Or.inr (Or.inr (Or.inr (Or.inr hnd))))
    exact ⟨nm, by
      rw [Cgresolver.parseCG_serialize_slow cols rows c0 cRest hsh hrows hlen2 hnotfast,
        hfc]⟩

theorem c6_proc_cgroups_column_layouts_witness :
    Cgresolver.parseCGSubsystems (Cgresolver.serializeCG
        [Cgresolver.CGCol.hier, Cgresolver.CGCol.subsys]
        [⟨"cpu".toList, "3".toList, "7".toList, "1".toList⟩]) =
      .ok [⟨"cpu".toList, 3, 0, true⟩] := by
  have h := c6_proc_cgroups_column_layouts.1
    [Cgresolver.CGCol.hier, Cgresolver.CGCol.subsys]
    [⟨"cpu".toList, "3".toList, "7".toList, "1".toList⟩]
    (fun _ => 3) (fun _ => 7) (fun _ => true)
    (by decide) (by decide) (by decide) (by decide) (by decide) (by decide) (by decide)
  rw [h]
  rfl
